import Mathlib

/-!
Verification of the indexing and autocomplete core of the repository.

Each definition is a shallow embedding of a source function, translated from
the TypeScript source (file and function named in the doc comment).  Theorems
settle the frozen claims about the program.
-/

set_option autoImplicit false

/-! ## JS string primitives

The embedding represents JS strings by Lean `String` and implements the JS
methods used by the sources (`trim`, `trimStart`, `startsWith`,
`split("\n")`) over the underlying character list, so that all definitions
evaluate inside the kernel.  Whitespace is `Char.isWhitespace` (space, tab,
CR, LF), which coincides with JS `\s` on all characters the sources and
inputs here use.
-/

/-- JS `String.prototype.trim`. -/
def jsTrim (s : String) : String :=
  ⟨((s.data.dropWhile Char.isWhitespace).reverse.dropWhile
      Char.isWhitespace).reverse⟩

/-- JS `String.prototype.trimStart`. -/
def jsTrimStart (s : String) : String :=
  ⟨s.data.dropWhile Char.isWhitespace⟩

/-- JS `String.prototype.startsWith`. -/
def jsStartsWith (s pre : String) : Bool :=
  pre.data.isPrefixOf s.data

/-- Split a character list on a separator character (JS `split(sep)` on a
one-character separator): always returns at least one piece. -/
def splitListOnChar (sep : Char) : List Char → List (List Char)
  | [] => [[]]
  | c :: cs =>
    let rest := splitListOnChar sep cs
    if c = sep then [] :: rest
    else
      match rest with
      | [] => [[c]]
      | p :: ps => (c :: p) :: ps

/-- JS `String.prototype.split("\n")`. -/
def jsSplitNewline (s : String) : List String :=
  (splitListOnChar (Char.ofNat 10) s.data).map (fun l => ⟨l⟩)

theorem splitListOnChar_ne_nil (sep : Char) (cs : List Char) :
    splitListOnChar sep cs ≠ [] := by
  cases cs with
  | nil => simp [splitListOnChar]
  | cons c cs =>
    simp only [splitListOnChar]
    by_cases h : c = sep
    · simp [h]
    · simp only [h, if_false]
      cases splitListOnChar sep cs with
      | nil => simp
      | cons p ps => simp

theorem jsSplitNewline_ne_nil (s : String) : jsSplitNewline s ≠ [] := by
  unfold jsSplitNewline
  intro h
  exact splitListOnChar_ne_nil (Char.ofNat 10) s.data (by
    exact List.map_eq_nil_iff.mp h)

/-! ## Multiline decision (autocomplete)

Embeds `shouldCompleteMultiline` and its helpers from
`core/autocomplete/classification` (src/unnamed/part_003, lines 243-304).
-/

/-- The fields of `HelperVars` read by `shouldCompleteMultiline`.
`multilineCompletions` is the raw option string (the source switches on it
with a default branch); `selectedCompletionInfo` is modelled by its
truthiness (present or not); `singleLineComment` is the language's comment
leader, where the empty string models a falsy (missing) value, matching the
JS truthiness test `helper.lang.singleLineComment && ...`; `useMultiline`
is the optional language hook. -/
structure HelperVars where
  multilineCompletions : String
  selectedCompletionInfo : Bool
  singleLineComment : String
  fullPrefix : String
  prunedPrefix : String
  prunedSuffix : String
  useMultiline : Option (String → String → Bool)

/-- `shouldCompleteMultilineBasedOnLanguage` (src/unnamed/part_003 lines 254-260):
`language.useMultiline?.({ prefix, suffix }) ?? true`. -/
def shouldCompleteMultilineBasedOnLanguage (helper : HelperVars) : Bool :=
  match helper.useMultiline with
  | some f => f helper.prunedPrefix helper.prunedSuffix
  | none => true

/-- The last element of `fullPrefix.split("\n")` (JS `.slice(-1)[0]`),
defaulting to the empty string (`?.` fallback makes the test falsy). -/
def lastPrefixLine (fullPrefix : String) : String :=
  (jsSplitNewline fullPrefix).getLastD ""

/-- `shouldCompleteMultiline` (src/unnamed/part_003 lines 267-304).
Switch on the option; when the selected-completion info is present the
source returns `true`; when the cursor line starts with the single-line
comment leader it returns `false`; otherwise it defers to the language. -/
def shouldCompleteMultiline (helper : HelperVars) : Bool :=
  if helper.multilineCompletions = "always" then true
  else if helper.multilineCompletions = "never" then false
  else if helper.selectedCompletionInfo then true
  else if helper.singleLineComment ≠ "" ∧
      jsStartsWith (jsTrimStart (lastPrefixLine helper.fullPrefix))
        helper.singleLineComment then false
  else shouldCompleteMultilineBasedOnLanguage helper

/-- A concrete input: multiline configuration is `"auto"` (neither `"always"`
nor `"never"`) and the IDE pop-up (selected-completion info) is present. -/
def popupHelper : HelperVars :=
  { multilineCompletions := "auto"
    selectedCompletionInfo := true
    singleLineComment := "//"
    fullPrefix := "let x = 1\nlet y = "
    prunedPrefix := "let y = "
    prunedSuffix := "\n"
    useMultiline := none }

/-- Claim C3: the claim (and the source's own comment, "always single-line
completion when an IntelliSense option is selected") say the decision is
forced single-line, i.e. `false`; evaluating the code at the failing input
shows it returns `true` (multiline). -/
theorem shouldCompleteMultiline_popup_returns_true :
    shouldCompleteMultiline popupHelper = true := by
  rfl

/-! ## `noDoubleNewLine` line filter

Embeds `noDoubleNewLine` from the line-stream transforms
(src/unnamed/part_001, lines 1044-1056).  The async line stream is modelled
as a `List String`; the generator's early `return` is the empty tail.
-/

/-- The loop of `noDoubleNewLine` with its `isFirstLine` flag. -/
def noDoubleNewLineGo : Bool → List String → List String
  | _, [] => []
  | isFirstLine, l :: ls =>
    if jsTrim l = "" ∧ ¬ isFirstLine then []
    else l :: noDoubleNewLineGo false ls

/-- `noDoubleNewLine` (src/unnamed/part_001 lines 1044-1056): the flag
starts `true`. -/
def noDoubleNewLine (lines : List String) : List String :=
  noDoubleNewLineGo true lines

/-- Claim C4 counterexample: on `["a", "", "b", ""]` the claim predicts the
output `["a", "", "b"]` (first blank line emitted, stream ends at the second
blank line), but the code stops at the first blank line without emitting it,
producing `["a"]`. -/
theorem noDoubleNewLine_stops_at_first_blank :
    noDoubleNewLine ["a", "", "b", ""] = ["a"] ∧
      noDoubleNewLine ["a", "", "b", ""] ≠ ["a", "", "b"] := by
  constructor
  · decide
  · decide

/-- Claim C4 (amended): the filter emits the first line unconditionally and
then emits subsequent lines up to, but not including, the first blank line
among them; so the stream ends at the first blank line that is not the very
first line, and that blank line is not emitted.  (Only when the stream
begins with a blank line does the output end at the second blank line.) -/
theorem noDoubleNewLine_characterization (lines : List String) :
    noDoubleNewLine lines =
      match lines with
      | [] => []
      | l :: ls => l :: ls.takeWhile (fun x => ¬ jsTrim x = "") := by
  cases lines with
  | nil => rfl
  | cons l ls =>
    show noDoubleNewLineGo true (l :: ls) = _
    have go_false : ∀ xs : List String,
        noDoubleNewLineGo false xs =
          xs.takeWhile (fun x => ¬ jsTrim x = "") := by
      intro xs
      induction xs with
      | nil => rfl
      | cons x xs ih =>
        by_cases hx : jsTrim x = ""
        · simp [noDoubleNewLineGo, hx, List.takeWhile]
        · simp [noDoubleNewLineGo, hx, List.takeWhile, ih]
    simp only [noDoubleNewLineGo, not_true, and_false, if_false]
    rw [go_false]

/-! ## Autocomplete debouncer

Embeds `AutocompleteDebouncer.delayAndShouldDebounce`
(src/core/autocomplete/util/AutocompleteLoggingService.ts lines 179-208) as
an event-step relation.  The JS object holds a single pending timeout handle
(`debounceTimeout`) and the id of the most recent request
(`currentRequestId`).  A `call` event models one invocation of
`delayAndShouldDebounce`: it stamps a fresh id, clears the pending timeout
(whose promise therefore never resolves) and installs its own timer.  A
`fire` event models the pending timer firing after the configured delay: the
promise of the request that installed it resolves with
`currentRequestId !== requestId`, and on a match `currentRequestId` is
cleared.
-/

structure DebouncerState where
  currentRequestId : Option Nat
  pendingTimer : Option Nat
  deriving DecidableEq, Repr

inductive DebouncerEvent where
  | call (id : Nat)
  | fire
  deriving DecidableEq, Repr

/-- One step of the debouncer; the second component is the resolution
`(requestId, shouldDebounce)` produced by the step, if any. -/
def debouncerStep (s : DebouncerState) :
    DebouncerEvent → DebouncerState × Option (Nat × Bool)
  | .call id => (⟨some id, some id⟩, none)
  | .fire =>
    match s.pendingTimer with
    | none => (s, none)
    | some id =>
      let shouldDebounce : Bool := decide (s.currentRequestId ≠ some id)
      let cur := if shouldDebounce then s.currentRequestId else none
      (⟨cur, none⟩, some (id, shouldDebounce))

/-- Run a list of events from a state, collecting resolutions in order. -/
def debouncerRunFrom (s : DebouncerState) :
    List DebouncerEvent → DebouncerState × List (Nat × Bool)
  | [] => (s, [])
  | e :: es =>
    let (s1, r) := debouncerStep s e
    let (s2, rs) := debouncerRunFrom s1 es
    (s2, (r.toList) ++ rs)

/-- Run from the initial state (no request, no timer). -/
def debouncerRun (evs : List DebouncerEvent) :
    DebouncerState × List (Nat × Bool) :=
  debouncerRunFrom ⟨none, none⟩ evs

/-- Claim C5 counterexample: two calls (ids 0 and 1) followed by the timer
firing.  The claim predicts that both promises resolve — request 0 with
`true` (debounced) and request 1 with `false` — but the second call clears
request 0's timer, so only one resolution ever happens: request 1 resolves
`false`; request 0's promise never resolves. -/
theorem debouncerRun_superseded_never_resolves :
    (debouncerRun [.call 0, .call 1, .fire]).2 = [(1, false)] ∧
      (debouncerRun [.call 0, .call 1, .fire]).2.length = 1 := by
  constructor <;> rfl

/-- Invariant: whenever a timer is pending, the request that installed it is
still the most recent one. -/
def debouncerInv (s : DebouncerState) : Prop :=
  ∀ id, s.pendingTimer = some id → s.currentRequestId = some id

theorem debouncerStep_inv (s : DebouncerState) (h : debouncerInv s)
    (e : DebouncerEvent) : debouncerInv (debouncerStep s e).1 := by
  cases e with
  | call id => intro j hj; cases hj; rfl
  | fire =>
    cases hp : s.pendingTimer with
    | none => simpa [debouncerStep, hp] using h
    | some id => intro j hj; simp [debouncerStep, hp] at hj

theorem debouncerStep_resolution_false (s : DebouncerState)
    (h : debouncerInv s) (e : DebouncerEvent) (id : Nat) (b : Bool)
    (hr : (debouncerStep s e).2 = some (id, b)) : b = false := by
  cases e with
  | call i => simp [debouncerStep] at hr
  | fire =>
    cases hp : s.pendingTimer with
    | none => simp [debouncerStep, hp] at hr
    | some i =>
      have hc := h i hp
      simp [debouncerStep, hp, hc] at hr
      exact hr.2

theorem debouncerRunFrom_resolutions_false (evs : List DebouncerEvent) :
    ∀ s : DebouncerState, debouncerInv s →
      ∀ r ∈ (debouncerRunFrom s evs).2, r.2 = false := by
  induction evs with
  | nil => intro s _ r hr; simp [debouncerRunFrom] at hr
  | cons e es ih =>
    intro s hs r hr
    simp only [debouncerRunFrom, List.mem_append] at hr
    rcases hr with hr | hr
    · rcases ho : (debouncerStep s e).2 with _ | p
      · simp [ho] at hr
      · rw [ho] at hr
        simp only [Option.toList_some, List.mem_singleton] at hr
        subst hr
        exact debouncerStep_resolution_false s hs e r.1 r.2 (by rw [ho])
    · exact ih (debouncerStep s e).1 (debouncerStep_inv s hs e) r hr

/-- Claim C5 (amended): each new call clears the previous pending timer, so
a call that is superseded before its timer fires never resolves at all; the
only promises that resolve are those whose timer actually fires, and such a
call is by then still the most recent, so every resolution carries `false`
(proceed).  No call ever resolves `true`. -/
theorem debouncer_resolutions_always_false (evs : List DebouncerEvent)
    (r : Nat × Bool) (hr : r ∈ (debouncerRun evs).2) : r.2 = false :=
  debouncerRunFrom_resolutions_false evs ⟨none, none⟩
    (fun _ h => by cases h) r hr

theorem debouncer_resolutions_always_false_witness :
    ((1, false) : Nat × Bool) ∈ (debouncerRun [.call 0, .call 1, .fire]).2 ∧
      (((1, false) : Nat × Bool)).2 = false := by
  refine ⟨by decide, ?_⟩
  exact debouncer_resolutions_always_false [.call 0, .call 1, .fire]
    (1, false) (by decide)

/-! ## `refreshFiles` progress stream

Embeds `CodebaseIndexer.refreshFiles` (src/core/indexing/CodebaseIndexer.ts
lines 262-299) on its unexceptional path (no pause, no thrown error).  The
generator's yields are collected in order; `refreshFile` itself yields
nothing.  Progress is a rational number; JS computes `1 / files.length`
(`Infinity` for the empty list) but never uses it when the loop body does
not run.
-/

structure IndexingProgressUpdate where
  progress : ℚ
  desc : String
  status : String
  deriving DecidableEq, Repr

def doneUpdate : IndexingProgressUpdate :=
  ⟨1, "Indexing Complete", "done"⟩

/-- The per-file loop of `refreshFiles`: one `indexing` update per file,
progress advancing by `per` after each file. -/
def refreshFilesLoop : List String → ℚ → ℚ → List IndexingProgressUpdate
  | [], _, _ => []
  | f :: fs, progress, per =>
    ⟨progress, "Indexing file " ++ f ++ "...", "indexing"⟩ ::
      refreshFilesLoop fs (progress + per) per

/-- `refreshFiles`: for an empty list it first yields the final update
without returning, then runs the (empty) loop, then yields the final update
again. -/
def refreshFilesUpdates (files : List String) : List IndexingProgressUpdate :=
  (if files.length = 0 then [doneUpdate] else []) ++
    refreshFilesLoop files 0 (1 / (files.length : ℚ)) ++ [doneUpdate]

/-- Claim C10: on an empty file list the progress stream of `refreshFiles`
contains exactly two `{progress: 1, status: "done"}` updates — the
empty-list branch yields one and the epilogue after the (empty) loop yields
the second. -/
theorem refreshFilesUpdates_empty_double_done :
    refreshFilesUpdates [] = [doneUpdate, doneUpdate] ∧
      doneUpdate.progress = 1 ∧ doneUpdate.status = "done" := by
  refine ⟨rfl, rfl, rfl⟩

/-! ## Chunker

Embeds `basicChunker` (src/unnamed/part_000, lines 11-54) and the basic-mode
path of `chunkDocument` / `chunkDocumentWithoutId`
(src/core/indexing/chunk/chunk.ts, lines 23-89; the path taken when the file
extension has no tree-sitter parser).  The external token counter
`countTokensAsync` is not part of the repository, so it is a parameter
`tokens : String → Nat` of the embedding.
-/

/-- `ChunkWithoutID` — line numbers are JS numbers; `endLine` is
`currLine - 1` at flush time, which can be `-1`. -/
structure ChunkWithoutID where
  content : String
  startLine : Int
  endLine : Int
  deriving DecidableEq, Repr

/-- `Chunk` as assembled by `chunkDocument`. -/
structure Chunk where
  content : String
  digest : String
  filepath : String
  startLine : Int
  endLine : Int
  index : Nat
  deriving DecidableEq, Repr

/-- The accumulator loop of `basicChunker` over `(line, tokenCount)` pairs.
On each line: flush the accumulator when adding the line would exceed
`maxChunkSize - 5`; accumulate the line only when its own count is below
`maxChunkSize` (longer lines are dropped); always advance `currLine`. -/
def basicChunkerGo (maxChunkSize : Nat) :
    List (String × Nat) → String → Nat → Nat → Nat → List ChunkWithoutID
  | [], chunkContent, _, startLine, currLine =>
    [⟨chunkContent, (startLine : Int), (currLine : Int) - 1⟩]
  | (l, t) :: rest, chunkContent, chunkTokens, startLine, currLine =>
    let flush : Bool :=
      decide ((chunkTokens : Int) + t > (maxChunkSize : Int) - 5)
    let content1 := if flush then "" else chunkContent
    let tokens1 := if flush then 0 else chunkTokens
    let start1 := if flush then currLine else startLine
    let keep : Bool := decide ((t : Int) < (maxChunkSize : Int))
    let content2 := if keep then content1 ++ l ++ "\n" else content1
    let tokens2 := if keep then tokens1 + t + 1 else tokens1
    (if flush then [⟨chunkContent, (startLine : Int), (currLine : Int) - 1⟩]
     else []) ++
      basicChunkerGo maxChunkSize rest content2 tokens2 start1 (currLine + 1)

/-- `basicChunker` (src/unnamed/part_000 lines 11-54). -/
def basicChunker (tokens : String → Nat) (contents : String)
    (maxChunkSize : Nat) : List ChunkWithoutID :=
  if (jsTrim contents).length = 0 then []
  else
    let lineTokens := (jsSplitNewline contents).map (fun l => (l, tokens l))
    basicChunkerGo maxChunkSize lineTokens "" 0 0 0

/-- `chunkDocument` on the basic-chunker path (chunk.ts lines 23-89):
`chunkDocumentWithoutId` returns nothing for blank contents and otherwise
defers to `basicChunker`; each produced chunk gets the running `index` and is
discarded when its token count exceeds `maxChunkSize`. -/
def chunkDocumentBasic (tokens : String → Nat) (filepath contents : String)
    (maxChunkSize : Nat) (digest : String) : List Chunk :=
  let withoutIds :=
    if jsTrim contents = "" then []
    else basicChunker tokens contents maxChunkSize
  withoutIds.enum.filterMap (fun p =>
    if tokens p.2.content > maxChunkSize then none
    else some ⟨p.2.content, digest, filepath, p.2.startLine, p.2.endLine, p.1⟩)

/-- Claim C6 counterexample: a single-line file whose line costs more than
`maxChunkSize - 5` tokens but less than `maxChunkSize`.  The first loop
iteration flushes the empty accumulator, producing a chunk with
`startLine = 0`, `endLine = -1`; its empty content passes the token filter,
so `chunkDocument` yields a chunk violating both `start_line ≤ end_line`
and `end_line ∈ [0, line_count)`. -/
theorem chunkDocumentBasic_degenerate_chunk :
    chunkDocumentBasic String.length "f.txt" "aaaaaaa" 10 "d" =
      [⟨"", "d", "f.txt", 0, -1, 0⟩, ⟨"aaaaaaa\n", "d", "f.txt", 0, 0, 1⟩] ∧
      ¬ ((0 : Int) ≤ -1) := by
  constructor
  · decide
  · decide

theorem basicChunkerGo_bounds (maxChunkSize : Nat) (lts : List (String × Nat))
    (chunkContent : String) (chunkTokens startLine currLine : Nat)
    (hsc : startLine ≤ currLine)
    (hnil : lts = [] → startLine < currLine) :
    ∀ ch ∈ basicChunkerGo maxChunkSize lts chunkContent chunkTokens
        startLine currLine,
      0 ≤ ch.startLine ∧
      ch.startLine ≤ (currLine : Int) + lts.length - 1 ∧
      (-1 : Int) ≤ ch.endLine ∧
      ch.endLine ≤ (currLine : Int) + lts.length - 1 ∧
      ch.startLine ≤ ch.endLine + 1 := by
  induction lts generalizing chunkContent chunkTokens startLine currLine with
  | nil =>
    intro ch hch
    have hlt := hnil rfl
    simp only [basicChunkerGo, List.mem_singleton] at hch
    subst hch
    refine ⟨by positivity, ?_, ?_, ?_, ?_⟩ <;> simp only [List.length_nil] <;>
      omega
  | cons p rest ih =>
    intro ch hch
    obtain ⟨l, t⟩ := p
    simp only [basicChunkerGo, List.mem_append] at hch
    rcases hch with hch | hch
    · rcases hf : decide ((chunkTokens : Int) + t >
          (maxChunkSize : Int) - 5) with _ | _
      · simp [hf] at hch
      · simp only [hf, if_true, List.mem_singleton] at hch
        subst hch
        refine ⟨by positivity, ?_, ?_, ?_, ?_⟩ <;> simp <;> omega
    · have hstep := ih _ _
        (if decide ((chunkTokens : Int) + t > (maxChunkSize : Int) - 5)
         then currLine else startLine)
        (currLine + 1)
        (by split <;> omega) (fun _ => by split <;> omega) ch hch
      refine ⟨hstep.1, ?_, hstep.2.2.1, ?_, hstep.2.2.2.2⟩
      · have := hstep.2.1
        simp only [List.length_cons]
        push_cast at this ⊢
        omega
      · have := hstep.2.2.2.1
        simp only [List.length_cons]
        push_cast at this ⊢
        omega

/-- Claim C6 (amended): every chunk yielded by the basic-mode
`chunkDocument` has token count at most `max_chunk_size` (oversize chunks
are discarded after construction, not split), and its line numbers satisfy
`0 ≤ start_line < line_count`, `-1 ≤ end_line < line_count` and
`start_line ≤ end_line + 1`; a chunk flushed before any line was
accumulated is empty with `end_line = start_line - 1`, so `start_line ≤
end_line` and `end_line ≥ 0` do not hold in general. -/
theorem chunkDocumentBasic_bounds (tokens : String → Nat)
    (filepath contents : String) (maxChunkSize : Nat) (digest : String)
    (c : Chunk)
    (hc : c ∈ chunkDocumentBasic tokens filepath contents maxChunkSize digest) :
    tokens c.content ≤ maxChunkSize ∧
    0 ≤ c.startLine ∧
    c.startLine < ((jsSplitNewline contents).length : Int) ∧
    (-1 : Int) ≤ c.endLine ∧
    c.endLine < ((jsSplitNewline contents).length : Int) ∧
    c.startLine ≤ c.endLine + 1 := by
  unfold chunkDocumentBasic at hc
  by_cases hblank : jsTrim contents = ""
  · simp [hblank] at hc
  · simp only [hblank, if_false] at hc
    rw [List.mem_filterMap] at hc
    obtain ⟨⟨i, ch⟩, hmem, heq⟩ := hc
    by_cases htok : tokens ch.content > maxChunkSize
    · simp [htok] at heq
    · simp only [htok, if_false, Option.some_inj] at heq
      subst heq
      have hch : ch ∈ basicChunker tokens contents maxChunkSize := by
        have h2 := List.enum_map_snd (basicChunker tokens contents maxChunkSize)
        have : (i, ch).2 ∈
            (basicChunker tokens contents maxChunkSize).enum.map Prod.snd :=
          List.mem_map_of_mem Prod.snd hmem
        rwa [h2] at this
      unfold basicChunker at hch
      have hlen : ¬ (jsTrim contents).length = 0 := by
        intro h
        exact hblank (by
          cases hs : jsTrim contents with
          | mk data =>
            rw [hs] at h
            simp [String.length] at h
            simp [h])
      simp only [hlen, if_false] at hch
      have hnil : ((jsSplitNewline contents).map
          (fun l => (l, tokens l))) ≠ [] := by
        intro h
        exact jsSplitNewline_ne_nil contents (List.map_eq_nil_iff.mp h)
      have hb := basicChunkerGo_bounds maxChunkSize
        ((jsSplitNewline contents).map (fun l => (l, tokens l))) "" 0 0 0
        (le_refl 0) (fun h => absurd h hnil) ch hch
      have hlc : (((jsSplitNewline contents).map
          (fun l => (l, tokens l))).length : Int) =
          ((jsSplitNewline contents).length : Int) := by
        simp
      refine ⟨Nat.le_of_not_lt htok, hb.1, ?_, hb.2.2.1, ?_, hb.2.2.2.2⟩
      · have h1 := hb.2.1
        rw [hlc] at h1
        show ch.startLine < ((jsSplitNewline contents).length : Int)
        omega
      · have h1 := hb.2.2.2.1
        rw [hlc] at h1
        show ch.endLine < ((jsSplitNewline contents).length : Int)
        omega

theorem chunkDocumentBasic_bounds_witness :
    (⟨"aaaaaaa\n", "d", "f.txt", 0, 0, 1⟩ : Chunk) ∈
      chunkDocumentBasic String.length "f.txt" "aaaaaaa" 10 "d" ∧
    (String.length (⟨"aaaaaaa\n", "d", "f.txt", 0, 0, 1⟩ : Chunk).content ≤ 10 ∧
     0 ≤ (⟨"aaaaaaa\n", "d", "f.txt", 0, 0, 1⟩ : Chunk).startLine ∧
     (⟨"aaaaaaa\n", "d", "f.txt", 0, 0, 1⟩ : Chunk).startLine <
       ((jsSplitNewline "aaaaaaa").length : Int) ∧
     (-1 : Int) ≤ (⟨"aaaaaaa\n", "d", "f.txt", 0, 0, 1⟩ : Chunk).endLine ∧
     (⟨"aaaaaaa\n", "d", "f.txt", 0, 0, 1⟩ : Chunk).endLine <
       ((jsSplitNewline "aaaaaaa").length : Int) ∧
     (⟨"aaaaaaa\n", "d", "f.txt", 0, 0, 1⟩ : Chunk).startLine ≤
       (⟨"aaaaaaa\n", "d", "f.txt", 0, 0, 1⟩ : Chunk).endLine + 1) :=
  ⟨by decide,
   chunkDocumentBasic_bounds String.length "f.txt" "aaaaaaa" 10 "d"
     ⟨"aaaaaaa\n", "d", "f.txt", 0, 0, 1⟩ (by decide)⟩

/-! ## Durable catalog (src/core/indexing/refreshIndex.ts)

The two tables created by `SqliteDb.createTables` (lines 33-87) are modelled
as row lists in rowid order.  `REPLACE INTO` under the unique index deletes
every conflicting row and appends the fresh row; `DELETE ... WHERE` filters;
`UPDATE ... SET` maps the matching rows, and — modelling SQLite's default
`ON CONFLICT ABORT` under the unique indexes installed by `createTables` —
leaves the table unchanged when the statement would violate uniqueness.
-/

structure IndexTag where
  directory : String
  branch : String
  artifactId : String
  deriving DecidableEq, Repr

structure TagCatalogRow where
  dir : String
  branch : String
  artifactId : String
  path : String
  cacheKey : String
  lastUpdated : Nat
  deriving DecidableEq, Repr

structure GlobalCacheRow where
  cacheKey : String
  dir : String
  branch : String
  artifactId : String
  deriving DecidableEq, Repr

structure PathAndCacheKey where
  path : String
  cacheKey : String
  deriving DecidableEq, Repr

structure FileStats where
  lastModified : Nat
  size : Nat
  deriving DecidableEq, Repr

/-- `FileStatsMap` — a JS object, i.e. an ordered association list with
pairwise-distinct keys (distinctness is a hypothesis where needed). -/
abbrev FileStatsMap := List (String × FileStats)

/-- The uniqueness tuple of `idx_tag_catalog_unique`:
`(dir, branch, artifactId, path, cacheKey)`. -/
def tcTuple (r : TagCatalogRow) : String × String × String × String × String :=
  (r.dir, r.branch, r.artifactId, r.path, r.cacheKey)

/-- The uniqueness tuple of `idx_global_cache_unique`:
`(cacheKey, dir, branch, artifactId)`. -/
def gcTuple (r : GlobalCacheRow) : String × String × String × String :=
  (r.cacheKey, r.dir, r.branch, r.artifactId)

/-- No two tag-catalog rows share their uniqueness tuple. -/
def tcUnique (tc : List TagCatalogRow) : Prop :=
  tc.Pairwise (fun a b => tcTuple a ≠ tcTuple b)

/-- No two global-cache rows share their uniqueness tuple. -/
def gcUnique (gc : List GlobalCacheRow) : Prop :=
  gc.Pairwise (fun a b => gcTuple a ≠ gcTuple b)

instance (tc : List TagCatalogRow) : Decidable (tcUnique tc) :=
  inferInstanceAs (Decidable (tc.Pairwise _))

instance (gc : List GlobalCacheRow) : Decidable (gcUnique gc) :=
  inferInstanceAs (Decidable (gc.Pairwise _))

/-- The `REPLACE INTO tag_catalog ...` of `markComplete`'s `Compute` and
`Add` cases (refreshIndex.ts lines 294-315). -/
def replaceTagCatalog (tc : List TagCatalogRow) (tag : IndexTag)
    (path cacheKey : String) (ts : Nat) : List TagCatalogRow :=
  tc.filter (fun r => decide (tcTuple r ≠
      (tag.directory, tag.branch, tag.artifactId, path, cacheKey))) ++
    [⟨tag.directory, tag.branch, tag.artifactId, path, cacheKey, ts⟩]

/-- The `DELETE FROM tag_catalog WHERE ...` of `markComplete`'s `Remove`
case (refreshIndex.ts lines 316-331). -/
def deleteTagCatalog (tc : List TagCatalogRow) (tag : IndexTag)
    (path cacheKey : String) : List TagCatalogRow :=
  tc.filter (fun r => decide (tcTuple r ≠
    (tag.directory, tag.branch, tag.artifactId, path, cacheKey)))

/-- The `UPDATE tag_catalog SET cacheKey = ?, lastUpdated = ? WHERE path
AND dir AND branch AND artifactId` of `markComplete`'s `UpdateLastUpdated`
and `UpdateNewVersion` cases (refreshIndex.ts lines 332-351), with SQLite's
statement rollback when the update would violate the unique index. -/
def updateTagCatalog (tc : List TagCatalogRow) (tag : IndexTag)
    (path cacheKey : String) (ts : Nat) : List TagCatalogRow :=
  let updated := tc.map (fun r =>
    if r.path = path ∧ r.dir = tag.directory ∧ r.branch = tag.branch ∧
        r.artifactId = tag.artifactId
    then { r with cacheKey := cacheKey, lastUpdated := ts } else r)
  if tcUnique updated then updated else tc

/-- `GlobalCacheCodeBaseIndex.computeOrAddTag` (refreshIndex.ts lines
551-562): `REPLACE INTO global_cache`. -/
def computeOrAddTag (gc : List GlobalCacheRow) (cacheKey : String)
    (tag : IndexTag) : List GlobalCacheRow :=
  gc.filter (fun r => decide (gcTuple r ≠
      (cacheKey, tag.directory, tag.branch, tag.artifactId))) ++
    [⟨cacheKey, tag.directory, tag.branch, tag.artifactId⟩]

/-- `GlobalCacheCodeBaseIndex.deleteOrRemoveTag` (refreshIndex.ts lines
563-574): `DELETE FROM global_cache WHERE ...`. -/
def deleteOrRemoveTag (gc : List GlobalCacheRow) (cacheKey : String)
    (tag : IndexTag) : List GlobalCacheRow :=
  gc.filter (fun r => decide (gcTuple r ≠
    (cacheKey, tag.directory, tag.branch, tag.artifactId)))

theorem tcUnique_filter (tc : List TagCatalogRow) (h : tcUnique tc)
    (p : TagCatalogRow → Bool) : tcUnique (tc.filter p) :=
  List.Pairwise.sublist (List.filter_sublist tc) h

theorem gcUnique_filter (gc : List GlobalCacheRow) (h : gcUnique gc)
    (p : GlobalCacheRow → Bool) : gcUnique (gc.filter p) :=
  List.Pairwise.sublist (List.filter_sublist gc) h

theorem tcUnique_replaceTagCatalog (tc : List TagCatalogRow) (h : tcUnique tc)
    (tag : IndexTag) (path cacheKey : String) (ts : Nat) :
    tcUnique (replaceTagCatalog tc tag path cacheKey ts) := by
  unfold replaceTagCatalog tcUnique
  rw [List.pairwise_append]
  refine ⟨tcUnique_filter tc h _, List.pairwise_singleton _ _, ?_⟩
  intro a ha b hb
  rw [List.mem_filter] at ha
  rw [List.mem_singleton] at hb
  subst hb
  have := of_decide_eq_true ha.2
  simpa [tcTuple] using this

theorem tcUnique_updateTagCatalog (tc : List TagCatalogRow) (h : tcUnique tc)
    (tag : IndexTag) (path cacheKey : String) (ts : Nat) :
    tcUnique (updateTagCatalog tc tag path cacheKey ts) := by
  simp only [updateTagCatalog]
  split
  · assumption
  · exact h

theorem gcUnique_computeOrAddTag (gc : List GlobalCacheRow) (h : gcUnique gc)
    (cacheKey : String) (tag : IndexTag) :
    gcUnique (computeOrAddTag gc cacheKey tag) := by
  unfold computeOrAddTag gcUnique
  rw [List.pairwise_append]
  refine ⟨gcUnique_filter gc h _, List.pairwise_singleton _ _, ?_⟩
  intro a ha b hb
  rw [List.mem_filter] at ha
  rw [List.mem_singleton] at hb
  subst hb
  have := of_decide_eq_true ha.2
  simpa [gcTuple] using this

/-- Claim C9: starting from tables satisfying the uniqueness constraints,
every catalog mutation — the `markComplete` cases `compute`/`addTag`
(`REPLACE`), `del`/`removeTag` (`DELETE`), `updateLastUpdated` (`UPDATE`
with SQLite conflict rollback) and the global-cache `computeOrAddTag` /
`deleteOrRemoveTag` — preserves the invariant that no two `tag_catalog`
rows share `(dir, branch, artifactId, path, cacheKey)` and no two
`global_cache` rows share `(cacheKey, dir, branch, artifactId)`. -/
theorem catalog_mutations_preserve_uniqueness (tc : List TagCatalogRow)
    (gc : List GlobalCacheRow) (tag : IndexTag) (path cacheKey : String)
    (ts : Nat) (htc : tcUnique tc) (hgc : gcUnique gc) :
    tcUnique (replaceTagCatalog tc tag path cacheKey ts) ∧
    tcUnique (deleteTagCatalog tc tag path cacheKey) ∧
    tcUnique (updateTagCatalog tc tag path cacheKey ts) ∧
    gcUnique (computeOrAddTag gc cacheKey tag) ∧
    gcUnique (deleteOrRemoveTag gc cacheKey tag) :=
  ⟨tcUnique_replaceTagCatalog tc htc tag path cacheKey ts,
   tcUnique_filter tc htc _,
   tcUnique_updateTagCatalog tc htc tag path cacheKey ts,
   gcUnique_computeOrAddTag gc hgc cacheKey tag,
   gcUnique_filter gc hgc _⟩

theorem catalog_mutations_preserve_uniqueness_witness :
    tcUnique [⟨"d", "main", "chunks", "p", "k1", 5⟩] ∧
    gcUnique [⟨"k1", "d", "main", "chunks"⟩] ∧
    (tcUnique (replaceTagCatalog [⟨"d", "main", "chunks", "p", "k1", 5⟩]
        ⟨"d", "main", "chunks"⟩ "p" "k2" 9) ∧
     tcUnique (deleteTagCatalog [⟨"d", "main", "chunks", "p", "k1", 5⟩]
        ⟨"d", "main", "chunks"⟩ "p" "k2") ∧
     tcUnique (updateTagCatalog [⟨"d", "main", "chunks", "p", "k1", 5⟩]
        ⟨"d", "main", "chunks"⟩ "p" "k2" 9) ∧
     gcUnique (computeOrAddTag [⟨"k1", "d", "main", "chunks"⟩] "k2"
        ⟨"d", "main", "chunks"⟩) ∧
     gcUnique (deleteOrRemoveTag [⟨"k1", "d", "main", "chunks"⟩] "k2"
        ⟨"d", "main", "chunks"⟩)) :=
  ⟨by decide, by decide,
   catalog_mutations_preserve_uniqueness
     [⟨"d", "main", "chunks", "p", "k1", 5⟩] [⟨"k1", "d", "main", "chunks"⟩]
     ⟨"d", "main", "chunks"⟩ "p" "k2" 9 (by decide) (by decide)⟩

/-! ## Refresh planner (refreshIndex.ts lines 121-515)

`calculateHash` (SHA-256) and the asynchronous `readFile` are external to
the repository's logic, so the planner is parameterized by
`hash : String → String` and `readFile : String → String`.
-/

def MAX_FILE_SIZE_BYTES : Nat := 5 * 1024 * 1024

/-- `getSavedItemsForTag` (lines 121-134): the tag's catalog rows in table
order. -/
def getSavedItemsForTag (tc : List TagCatalogRow) (tag : IndexTag) :
    List TagCatalogRow :=
  tc.filter (fun r => decide (r.dir = tag.directory ∧ r.branch = tag.branch ∧
    r.artifactId = tag.artifactId))

structure PathGroup where
  latestLastUpdated : Nat
  latestCacheKey : String
  allVersions : List String
  deriving DecidableEq, Repr

def assocGet {α : Type} (l : List (String × α)) (k : String) : Option α :=
  (l.find? (fun p => p.1 == k)).map (fun p => p.2)

/-- JS `Map.set` on an existing key: update in place, preserving insertion
order. -/
def assocSet {α : Type} (l : List (String × α)) (k : String) (v : α) :
    List (String × α) :=
  l.map (fun p => if p.1 == k then (k, v) else p)

/-- The grouping loop of `getAddRemoveForTag` (lines 184-208): group saved
rows by path in first-seen order, tracking the row with the strictly
greatest `lastUpdated` seen so far and all cache keys of the path. -/
def buildPathGroups : List TagCatalogRow → List (String × PathGroup) →
    List (String × PathGroup)
  | [], groups => groups
  | r :: rest, groups =>
    match assocGet groups r.path with
    | none =>
      buildPathGroups rest
        (groups ++ [(r.path, ⟨r.lastUpdated, r.cacheKey, [r.cacheKey]⟩)])
    | some g =>
      let g2 : PathGroup :=
        if g.latestLastUpdated < r.lastUpdated then
          ⟨r.lastUpdated, r.cacheKey, g.allVersions ++ [r.cacheKey]⟩
        else
          ⟨g.latestLastUpdated, g.latestCacheKey,
            g.allVersions ++ [r.cacheKey]⟩
      buildPathGroups rest (assocSet groups r.path g2)

structure PlannerAcc where
  updateNewVersion : List PathAndCacheKey
  updateOldVersion : List PathAndCacheKey
  remove : List PathAndCacheKey
  updateLastUpdated : List PathAndCacheKey
  deriving DecidableEq, Repr

/-- The per-path loop of `getAddRemoveForTag` (lines 210-246): a path absent
from the file map contributes all its versions to `remove`; a path whose
latest row is older than the file's mtime is re-read and re-hashed — a new
hash goes to `updateNewVersion` with every version in `updateOldVersion`,
an unchanged hash goes to `updateLastUpdated` with the non-latest versions
in `updateOldVersion`; otherwise the path is skipped.  Every path present
in the file map is deleted from it. -/
def processGroups (readFile hash : String → String) :
    List (String × PathGroup) → FileStatsMap → PlannerAcc →
    PlannerAcc × FileStatsMap
  | [], files, acc => (acc, files)
  | (path, g) :: rest, files, acc =>
    match assocGet files path with
    | none =>
      processGroups readFile hash rest files
        { acc with remove :=
            acc.remove ++ g.allVersions.map (fun k => ⟨path, k⟩) }
    | some stat =>
      let acc2 :=
        if g.latestLastUpdated < stat.lastModified then
          if g.latestCacheKey ≠ hash (readFile path) then
            { acc with
              updateNewVersion :=
                acc.updateNewVersion ++ [⟨path, hash (readFile path)⟩],
              updateOldVersion := acc.updateOldVersion ++
                g.allVersions.map (fun k => ⟨path, k⟩) }
          else
            { acc with
              updateLastUpdated :=
                acc.updateLastUpdated ++ [⟨path, g.latestCacheKey⟩],
              updateOldVersion := acc.updateOldVersion ++
                (g.allVersions.filter
                  (fun k => decide (k ≠ g.latestCacheKey))).map
                    (fun k => (⟨path, k⟩ : PathAndCacheKey)) }
        else acc
      processGroups readFile hash rest
        (files.filter (fun p => decide (p.1 ≠ path))) acc2

/-- The three lists `getAddRemoveForTag` returns (lines 371-376):
`add ++ updateNewVersion`, `remove ++ updateOldVersion`,
`updateLastUpdated`. -/
structure AddRemoveResults where
  add : List PathAndCacheKey
  remove : List PathAndCacheKey
  lastUpdated : List PathAndCacheKey
  deriving DecidableEq, Repr

/-- `getAddRemoveForTag` (lines 156-377).  Files over 5 MiB are dropped
first; paths never seen in the catalog are read (and hashed) into `add`. -/
def getAddRemoveForTag (tag : IndexTag) (tc : List TagCatalogRow)
    (currentFiles : FileStatsMap) (readFile hash : String → String) :
    AddRemoveResults :=
  let files := currentFiles.filter
    (fun p => decide (p.2.size ≤ MAX_FILE_SIZE_BYTES))
  let saved := getSavedItemsForTag tc tag
  let groups := buildPathGroups saved []
  match processGroups readFile hash groups files ⟨[], [], [], []⟩ with
  | (acc, newFiles) =>
    ⟨(newFiles.map (fun p => (⟨p.1, hash (readFile p.1)⟩ : PathAndCacheKey)))
        ++ acc.updateNewVersion,
      acc.remove ++ acc.updateOldVersion,
      acc.updateLastUpdated⟩

/-- `getTagsFromGlobalCache` (lines 387-397). -/
def getTagsFromGlobalCache (gc : List GlobalCacheRow)
    (cacheKey artifactId : String) : List GlobalCacheRow :=
  gc.filter (fun r =>
    decide (r.cacheKey = cacheKey ∧ r.artifactId = artifactId))

structure RefreshIndexResults where
  compute : List PathAndCacheKey
  del : List PathAndCacheKey
  addTag : List PathAndCacheKey
  removeTag : List PathAndCacheKey
  deriving DecidableEq, Repr

structure DbState where
  tagCatalog : List TagCatalogRow
  globalCache : List GlobalCacheRow
  deriving DecidableEq, Repr

/-- The classification stage of `getComputeDeleteAddRemove` (lines
455-487): an `add` item goes to `addTag` iff the global cache holds at
least one tag for `(cacheKey, artifactId)` and to `compute` otherwise; a
`remove` item goes to `removeTag` iff it holds more than one tag and to
`del` otherwise.  The source pushes each item onto one of two arrays while
iterating, which is the order-preserving partition written here with
`filter`. -/
def getComputeDeleteAddRemove (tag : IndexTag) (st : DbState)
    (currentFiles : FileStatsMap) (readFile hash : String → String) :
    RefreshIndexResults × List PathAndCacheKey :=
  let ar := getAddRemoveForTag tag st.tagCatalog currentFiles readFile hash
  (⟨ar.add.filter (fun i => decide (¬ (getTagsFromGlobalCache st.globalCache
        i.cacheKey tag.artifactId).length > 0)),
    ar.remove.filter (fun i => decide (¬ (getTagsFromGlobalCache
        st.globalCache i.cacheKey tag.artifactId).length > 1)),
    ar.add.filter (fun i => decide ((getTagsFromGlobalCache st.globalCache
        i.cacheKey tag.artifactId).length > 0)),
    ar.remove.filter (fun i => decide ((getTagsFromGlobalCache st.globalCache
        i.cacheKey tag.artifactId).length > 1))⟩,
   ar.lastUpdated)

inductive IndexResultType where
  | compute
  | del
  | addTag
  | removeTag
  | updateLastUpdated
  deriving DecidableEq, Repr

/-- One `markComplete(items, resultType)` call's effect on the tag catalog
(lines 278-356), with the timestamp captured when the planner ran:
`compute`/`addTag` map to `REPLACE`, `del`/`removeTag` to `DELETE`,
`updateLastUpdated` to `UPDATE`. -/
def markCompleteTagCatalog (tag : IndexTag) (ts : Nat)
    (tc : List TagCatalogRow) (items : List PathAndCacheKey)
    (resultType : IndexResultType) : List TagCatalogRow :=
  items.foldl (fun tc item =>
    match resultType with
    | .compute => replaceTagCatalog tc tag item.path item.cacheKey ts
    | .addTag => replaceTagCatalog tc tag item.path item.cacheKey ts
    | .del => deleteTagCatalog tc tag item.path item.cacheKey
    | .removeTag => deleteTagCatalog tc tag item.path item.cacheKey
    | .updateLastUpdated =>
      updateTagCatalog tc tag item.path item.cacheKey ts) tc

/-- The global-cache side of the wrapped callback (lines 494-513 together
with `GlobalCacheCodeBaseIndex.update`, lines 532-549): `compute`/`addTag`
items are upserted, `del`/`removeTag` deleted; `updateLastUpdated` builds a
results object whose four plan keys are all empty, so the global cache is
untouched. -/
def markCompleteGlobalCache (tag : IndexTag) (gc : List GlobalCacheRow)
    (items : List PathAndCacheKey) (resultType : IndexResultType) :
    List GlobalCacheRow :=
  match resultType with
  | .compute => items.foldl (fun gc item =>
      computeOrAddTag gc item.cacheKey tag) gc
  | .addTag => items.foldl (fun gc item =>
      computeOrAddTag gc item.cacheKey tag) gc
  | .del => items.foldl (fun gc item =>
      deleteOrRemoveTag gc item.cacheKey tag) gc
  | .removeTag => items.foldl (fun gc item =>
      deleteOrRemoveTag gc item.cacheKey tag) gc
  | .updateLastUpdated => gc

/-- The wrapped completion callback of `getComputeDeleteAddRemove`
(lines 494-513). -/
def markCompleteState (tag : IndexTag) (ts : Nat) (st : DbState)
    (items : List PathAndCacheKey) (resultType : IndexResultType) : DbState :=
  ⟨markCompleteTagCatalog tag ts st.tagCatalog items resultType,
   markCompleteGlobalCache tag st.globalCache items resultType⟩

/-- Invoking the completion callback for every item of the plan, in the
order the per-artifact indexes and the orchestrator use: `compute`,
`addTag`, `removeTag`, `del` per batch (src/unnamed/part_001 lines 71-129),
then `markComplete(lastUpdated, UpdateLastUpdated)`
(CodebaseIndexer.ts line 601). -/
def runPlanCompletion (tag : IndexTag) (ts : Nat) (st : DbState)
    (results : RefreshIndexResults) (lastUpdated : List PathAndCacheKey) :
    DbState :=
  let st1 := markCompleteState tag ts st results.compute .compute
  let st2 := markCompleteState tag ts st1 results.addTag .addTag
  let st3 := markCompleteState tag ts st2 results.removeTag .removeTag
  let st4 := markCompleteState tag ts st3 results.del .del
  markCompleteState tag ts st4 lastUpdated .updateLastUpdated

/-- Claim C1: for every refresh of a tag, a new-content item (member of
`add ++ updateNewVersion`) is classified `compute` iff the global cache
holds no tag for its `(cache_key, artifact_id)` and `add_tag` otherwise;
a removed item (member of `remove ++ updateOldVersion`) is classified
`del` iff at most one global-cache tag holds the key and `remove_tag` iff
more than one does. -/
theorem getComputeDeleteAddRemove_classification (tag : IndexTag)
    (st : DbState) (currentFiles : FileStatsMap)
    (readFile hash : String → String) (item : PathAndCacheKey) :
    (item ∈ (getAddRemoveForTag tag st.tagCatalog currentFiles readFile
        hash).add →
      ((item ∈ (getComputeDeleteAddRemove tag st currentFiles readFile
          hash).1.compute ↔
        getTagsFromGlobalCache st.globalCache item.cacheKey
          tag.artifactId = []) ∧
       (item ∈ (getComputeDeleteAddRemove tag st currentFiles readFile
          hash).1.addTag ↔
        getTagsFromGlobalCache st.globalCache item.cacheKey
          tag.artifactId ≠ []))) ∧
    (item ∈ (getAddRemoveForTag tag st.tagCatalog currentFiles readFile
        hash).remove →
      ((item ∈ (getComputeDeleteAddRemove tag st currentFiles readFile
          hash).1.del ↔
        (getTagsFromGlobalCache st.globalCache item.cacheKey
          tag.artifactId).length ≤ 1) ∧
       (item ∈ (getComputeDeleteAddRemove tag st currentFiles readFile
          hash).1.removeTag ↔
        (getTagsFromGlobalCache st.globalCache item.cacheKey
          tag.artifactId).length > 1))) := by
  constructor
  · intro hadd
    constructor
    · simp only [getComputeDeleteAddRemove, List.mem_filter, hadd, true_and,
        decide_eq_true_eq]
      rw [← List.length_eq_zero]
      omega
    · simp only [getComputeDeleteAddRemove, List.mem_filter, hadd, true_and,
        decide_eq_true_eq]
      rw [← List.length_pos_iff_ne_nil]
  · intro hrem
    constructor
    · simp only [getComputeDeleteAddRemove, List.mem_filter, hrem, true_and,
        decide_eq_true_eq]
      omega
    · simp only [getComputeDeleteAddRemove, List.mem_filter, hrem, true_and,
        decide_eq_true_eq]

theorem getComputeDeleteAddRemove_classification_witness :
    ((⟨"p", "k"⟩ : PathAndCacheKey) ∈
      (getAddRemoveForTag ⟨"d", "main", "chunks"⟩ []
        [("p", ⟨7, 3⟩)] (fun _ => "body") (fun _ => "k")).add) ∧
    (((⟨"p", "k"⟩ : PathAndCacheKey) ∈
        (getComputeDeleteAddRemove ⟨"d", "main", "chunks"⟩ ⟨[], []⟩
          [("p", ⟨7, 3⟩)] (fun _ => "body") (fun _ => "k")).1.compute ↔
      getTagsFromGlobalCache [] "k" "chunks" = []) ∧
     ((⟨"p", "k"⟩ : PathAndCacheKey) ∈
        (getComputeDeleteAddRemove ⟨"d", "main", "chunks"⟩ ⟨[], []⟩
          [("p", ⟨7, 3⟩)] (fun _ => "body") (fun _ => "k")).1.addTag ↔
      getTagsFromGlobalCache [] "k" "chunks" ≠ [])) := by
  constructor
  · decide
  · exact ((getComputeDeleteAddRemove_classification ⟨"d", "main", "chunks"⟩
      ⟨[], []⟩ [("p", ⟨7, 3⟩)] (fun _ => "body") (fun _ => "k")
      ⟨"p", "k"⟩).1 (by decide))

/-! ## Replay idempotence (claim C2)

The counterexample: a catalog holding two versions of one path under the
tag (a state reachable when a previous refresh's callback was only
partially applied, e.g. after a crash), where the file has been reverted to
the older content.  The planner emits `updateNewVersion (p, hB)` and
`updateOldVersion [(p, hA), (p, hB)]`; completing the plan first `REPLACE`s
the row `(p, hB)` and then — the per-artifact indexes run `del` last —
deletes that very row, leaving the path entirely unindexed, so the second
run plans a fresh `add`/`compute`.
-/

def replayTag : IndexTag := ⟨"d", "main", "chunks"⟩

def replayFiles : FileStatsMap := [("p", ⟨20, 1⟩)]

def replayState0 : DbState :=
  ⟨[⟨"d", "main", "chunks", "p", "hA", 10⟩,
    ⟨"d", "main", "chunks", "p", "hB", 5⟩], []⟩

def replayPlan1 : RefreshIndexResults × List PathAndCacheKey :=
  getComputeDeleteAddRemove replayTag replayState0 replayFiles
    (fun _ => "c") (fun _ => "hB")

def replayState1 : DbState :=
  runPlanCompletion replayTag 30 replayState0 replayPlan1.1 replayPlan1.2

def replayPlan2 : RefreshIndexResults × List PathAndCacheKey :=
  getComputeDeleteAddRemove replayTag replayState1 replayFiles
    (fun _ => "c") (fun _ => "hB")

/-- Claim C2 counterexample: after producing the plan for `replayState0`
and invoking the completion callback for every item of it (including the
`touch_last_updated` items, of which there are none), the unchanged
workspace plans a non-empty second refresh: its `compute` list contains the
reverted content again, because the first run's `del` removed the row the
first run's `compute` had just written. -/
theorem replay_second_plan_nonempty :
    replayPlan2.1.compute = [⟨"p", "hB"⟩] ∧
    replayState1.tagCatalog = [] ∧
    ¬ (replayPlan2.1.compute = [] ∧ replayPlan2.1.del = [] ∧
        replayPlan2.1.addTag = [] ∧ replayPlan2.1.removeTag = [] ∧
        replayPlan2.2 = []) := by
  refine ⟨by decide, by decide, ?_⟩
  intro h
  exact absurd h.1 (by decide)

/-! Analysis of the planner for catalogs holding at most one row per
`(tag, path)`: each saved row becomes a singleton path group, and the
per-path loop contributes independently per row. -/

def singleGroup (r : TagCatalogRow) : String × PathGroup :=
  (r.path, ⟨r.lastUpdated, r.cacheKey, [r.cacheKey]⟩)

theorem assocGet_eq_none_iff {α : Type} (l : List (String × α)) (k : String) :
    assocGet l k = none ↔ ∀ p ∈ l, p.1 ≠ k := by
  unfold assocGet
  rw [Option.map_eq_none', List.find?_eq_none]
  constructor
  · intro h p hp
    have := h p hp
    simpa using this
  · intro h p hp
    simpa using h p hp

theorem assocGet_append_none {α : Type} (l1 l2 : List (String × α))
    (k : String) (h : assocGet l1 k = none) :
    assocGet (l1 ++ l2) k = assocGet l2 k := by
  induction l1 with
  | nil => simp
  | cons p l1 ih =>
    unfold assocGet at h ⊢
    cases hb : (p.1 == k) with
    | true => simp [List.find?_cons, hb] at h
    | false =>
      simp only [List.cons_append, List.find?_cons, hb]
      exact ih (by unfold assocGet; simpa [List.find?_cons, hb] using h)

theorem assocGet_filter_ne {α : Type} (l : List (String × α)) (k q : String)
    (h : q ≠ k) :
    assocGet (l.filter (fun p => decide (p.1 ≠ k))) q = assocGet l q := by
  induction l with
  | nil => rfl
  | cons p l ih =>
    by_cases hp : p.1 = k
    · have hcond : decide (p.1 ≠ k) = false := by simp [hp]
      have hq : (p.1 == q) = false := by
        rw [beq_eq_false_iff_ne, hp]
        exact Ne.symm h
      rw [List.filter_cons, hcond]
      simp only [Bool.false_eq_true, if_false]
      rw [ih]
      unfold assocGet
      rw [List.find?_cons, hq]
    · have hcond : decide (p.1 ≠ k) = true := by simp [hp]
      rw [List.filter_cons, hcond, if_pos rfl]
      unfold assocGet
      rw [List.find?_cons, List.find?_cons]
      cases hb : (p.1 == q) with
      | true => rfl
      | false => exact ih

theorem buildPathGroups_of_pairwise (saved : List TagCatalogRow)
    (hp : saved.Pairwise (fun a b => a.path ≠ b.path)) :
    ∀ groups0 : List (String × PathGroup),
      (∀ r ∈ saved, assocGet groups0 r.path = none) →
      buildPathGroups saved groups0 = groups0 ++ saved.map singleGroup := by
  induction saved with
  | nil => intro groups0 _; simp [buildPathGroups]
  | cons r rest ih =>
    intro groups0 hnone
    rw [List.pairwise_cons] at hp
    have h0 : assocGet groups0 r.path = none := hnone r (by simp)
    simp only [buildPathGroups, h0]
    show buildPathGroups rest (groups0 ++ [singleGroup r]) = _
    rw [ih hp.2 (groups0 ++ [singleGroup r]) ?_]
    · simp [singleGroup]
    · intro q hq
      rw [assocGet_append_none _ _ _ (hnone q (by simp [hq]))]
      have hne : (r.path == q.path) = false := by
        simpa using hp.1 q hq
      simp [assocGet, singleGroup, List.find?_cons, hne]

/-- Per-row planner contributions (relative to the size-filtered file map).
`rowRemove`: the row's version is removed when its path left the
workspace. -/
def rowRemove (files : FileStatsMap) (r : TagCatalogRow) :
    List PathAndCacheKey :=
  match assocGet files r.path with
  | none => [⟨r.path, r.cacheKey⟩]
  | some _ => []

/-- A stale row (file modified after the row's timestamp) whose re-read
content hashes differently contributes the new version. -/
def rowUpdateNew (files : FileStatsMap) (readFile hash : String → String)
    (r : TagCatalogRow) : List PathAndCacheKey :=
  match assocGet files r.path with
  | none => []
  | some stat =>
    if r.lastUpdated < stat.lastModified then
      if r.cacheKey ≠ hash (readFile r.path) then
        [⟨r.path, hash (readFile r.path)⟩]
      else []
    else []

/-- A stale row whose content changed also retires its old version. -/
def rowUpdateOld (files : FileStatsMap) (readFile hash : String → String)
    (r : TagCatalogRow) : List PathAndCacheKey :=
  match assocGet files r.path with
  | none => []
  | some stat =>
    if r.lastUpdated < stat.lastModified then
      if r.cacheKey ≠ hash (readFile r.path) then [⟨r.path, r.cacheKey⟩]
      else []
    else []

/-- A stale row whose content is unchanged only gets its timestamp
touched. -/
def rowTouch (files : FileStatsMap) (readFile hash : String → String)
    (r : TagCatalogRow) : List PathAndCacheKey :=
  match assocGet files r.path with
  | none => []
  | some stat =>
    if r.lastUpdated < stat.lastModified then
      if r.cacheKey ≠ hash (readFile r.path) then []
      else [⟨r.path, r.cacheKey⟩]
    else []

theorem flatMap_congr_of_mem {α β : Type} (l : List α) (f g : α → List β)
    (h : ∀ a ∈ l, f a = g a) : l.flatMap f = l.flatMap g := by
  induction l with
  | nil => rfl
  | cons a l ih =>
    rw [List.flatMap_cons, List.flatMap_cons]
    rw [h a (by simp), ih (fun b hb => h b (by simp [hb]))]

theorem rowRemove_congr (files1 files2 : FileStatsMap) (r : TagCatalogRow)
    (h : assocGet files1 r.path = assocGet files2 r.path) :
    rowRemove files1 r = rowRemove files2 r := by
  unfold rowRemove
  rw [h]

theorem rowUpdateNew_congr (files1 files2 : FileStatsMap)
    (readFile hash : String → String) (r : TagCatalogRow)
    (h : assocGet files1 r.path = assocGet files2 r.path) :
    rowUpdateNew files1 readFile hash r = rowUpdateNew files2 readFile hash r := by
  unfold rowUpdateNew
  rw [h]

theorem rowUpdateOld_congr (files1 files2 : FileStatsMap)
    (readFile hash : String → String) (r : TagCatalogRow)
    (h : assocGet files1 r.path = assocGet files2 r.path) :
    rowUpdateOld files1 readFile hash r = rowUpdateOld files2 readFile hash r := by
  unfold rowUpdateOld
  rw [h]

theorem rowTouch_congr (files1 files2 : FileStatsMap)
    (readFile hash : String → String) (r : TagCatalogRow)
    (h : assocGet files1 r.path = assocGet files2 r.path) :
    rowTouch files1 readFile hash r = rowTouch files2 readFile hash r := by
  unfold rowTouch
  rw [h]

theorem processGroups_singletons (readFile hash : String → String)
    (saved : List TagCatalogRow)
    (hp : saved.Pairwise (fun a b => a.path ≠ b.path)) :
    ∀ (files : FileStatsMap) (acc : PlannerAcc),
    processGroups readFile hash (saved.map singleGroup) files acc =
      (⟨acc.updateNewVersion ++
          saved.flatMap (rowUpdateNew files readFile hash),
        acc.updateOldVersion ++
          saved.flatMap (rowUpdateOld files readFile hash),
        acc.remove ++ saved.flatMap (rowRemove files),
        acc.updateLastUpdated ++
          saved.flatMap (rowTouch files readFile hash)⟩,
       files.filter (fun q =>
         decide (¬ q.1 ∈ saved.map TagCatalogRow.path))) := by
  induction saved with
  | nil =>
    intro files acc
    simp [processGroups]
  | cons r rest ih =>
    intro files acc
    rw [List.pairwise_cons] at hp
    have hrest := ih hp.2
    simp only [List.map_cons, singleGroup, processGroups]
    cases hn : assocGet files r.path with
    | none =>
      simp only [List.map_nil]
      rw [hrest files
        { acc with remove :=
            acc.remove ++ [⟨r.path, r.cacheKey⟩] }]
      have hfc : files.filter (fun q =>
            decide (¬ q.1 ∈ (rest.map TagCatalogRow.path))) =
          files.filter (fun q =>
            decide (¬ q.1 ∈ ((r :: rest).map TagCatalogRow.path))) := by
        apply List.filter_congr
        intro q hq
        have hqr : q.1 ≠ r.path :=
          (assocGet_eq_none_iff files r.path).mp hn q hq
        simp [List.mem_cons, hqr]
      rw [hfc]
      simp only [List.flatMap_cons, rowRemove, rowUpdateNew, rowUpdateOld,
        rowTouch, hn]
      simp [List.append_assoc]
    | some stat =>
      simp only []
      have hfiles : ∀ r2 ∈ rest,
          assocGet (files.filter (fun p => decide (p.1 ≠ r.path))) r2.path =
            assocGet files r2.path := by
        intro r2 h2
        exact assocGet_filter_ne files r.path r2.path
          (fun he => hp.1 r2 h2 he.symm)
      have hUN := flatMap_congr_of_mem rest
        (rowUpdateNew (files.filter (fun p => decide (p.1 ≠ r.path)))
          readFile hash)
        (rowUpdateNew files readFile hash)
        (fun r2 h2 => rowUpdateNew_congr _ _ _ _ _ (hfiles r2 h2))
      have hUO := flatMap_congr_of_mem rest
        (rowUpdateOld (files.filter (fun p => decide (p.1 ≠ r.path)))
          readFile hash)
        (rowUpdateOld files readFile hash)
        (fun r2 h2 => rowUpdateOld_congr _ _ _ _ _ (hfiles r2 h2))
      have hRM := flatMap_congr_of_mem rest
        (rowRemove (files.filter (fun p => decide (p.1 ≠ r.path))))
        (rowRemove files)
        (fun r2 h2 => rowRemove_congr _ _ _ (hfiles r2 h2))
      have hTL := flatMap_congr_of_mem rest
        (rowTouch (files.filter (fun p => decide (p.1 ≠ r.path)))
          readFile hash)
        (rowTouch files readFile hash)
        (fun r2 h2 => rowTouch_congr _ _ _ _ _ (hfiles r2 h2))
      have hff : (files.filter (fun p => decide (p.1 ≠ r.path))).filter
            (fun q => decide (¬ q.1 ∈ (rest.map TagCatalogRow.path))) =
          files.filter (fun q =>
            decide (¬ q.1 ∈ ((r :: rest).map TagCatalogRow.path))) := by
        rw [List.filter_filter]
        apply List.filter_congr
        intro q _
        by_cases h1 : q.1 = r.path
        · simp [h1]
        · simp [h1, List.mem_cons]
      by_cases hlt : r.lastUpdated < stat.lastModified
      · by_cases hkey : r.cacheKey ≠ hash (readFile r.path)
        · simp only [if_pos hlt, if_pos hkey]
          rw [hrest]
          rw [hUN, hUO, hRM, hTL, hff]
          simp only [List.flatMap_cons, rowRemove, rowUpdateNew,
            rowUpdateOld, rowTouch, hn, if_pos hlt, if_pos hkey,
            List.map_cons, List.map_nil]
          simp [List.append_assoc]
        · simp only [if_pos hlt, if_neg hkey]
          rw [hrest]
          rw [hUN, hUO, hRM, hTL, hff]
          simp only [List.flatMap_cons, rowRemove, rowUpdateNew,
            rowUpdateOld, rowTouch, hn, if_pos hlt, if_neg hkey]
          simp [List.append_assoc, List.filter_cons]
      · simp only [if_neg hlt]
        rw [hrest]
        rw [hUN, hUO, hRM, hTL, hff]
        simp only [List.flatMap_cons, rowRemove, rowUpdateNew,
          rowUpdateOld, rowTouch, hn, if_neg hlt]
        simp [List.append_assoc]

theorem getAddRemoveForTag_eq (tag : IndexTag) (tc : List TagCatalogRow)
    (files : FileStatsMap) (readFile hash : String → String)
    (hone : (getSavedItemsForTag tc tag).Pairwise
      (fun a b => a.path ≠ b.path)) :
    getAddRemoveForTag tag tc files readFile hash =
      ⟨((files.filter (fun p => decide (p.2.size ≤ MAX_FILE_SIZE_BYTES))).filter
          (fun q => decide (¬ q.1 ∈
            (getSavedItemsForTag tc tag).map TagCatalogRow.path))).map
          (fun q => (⟨q.1, hash (readFile q.1)⟩ : PathAndCacheKey)) ++
        (getSavedItemsForTag tc tag).flatMap (rowUpdateNew
          (files.filter (fun p => decide (p.2.size ≤ MAX_FILE_SIZE_BYTES)))
          readFile hash),
       (getSavedItemsForTag tc tag).flatMap (rowRemove
          (files.filter (fun p => decide (p.2.size ≤ MAX_FILE_SIZE_BYTES)))) ++
        (getSavedItemsForTag tc tag).flatMap (rowUpdateOld
          (files.filter (fun p => decide (p.2.size ≤ MAX_FILE_SIZE_BYTES)))
          readFile hash),
       (getSavedItemsForTag tc tag).flatMap (rowTouch
          (files.filter (fun p => decide (p.2.size ≤ MAX_FILE_SIZE_BYTES)))
          readFile hash)⟩ := by
  simp only [getAddRemoveForTag]
  rw [buildPathGroups_of_pairwise _ hone [] (fun _ _ => rfl),
    List.nil_append, processGroups_singletons readFile hash _ hone]
  simp

/-- The rows of one `(tag, path)` cell of the tag catalog. -/
def tagPathRows (tc : List TagCatalogRow) (tag : IndexTag) (p : String) :
    List TagCatalogRow :=
  tc.filter (fun r => decide (r.dir = tag.directory ∧ r.branch = tag.branch ∧
    r.artifactId = tag.artifactId ∧ r.path = p))

theorem tagPathRows_eq_saved_filter (tc : List TagCatalogRow) (tag : IndexTag)
    (p : String) :
    tagPathRows tc tag p =
      (getSavedItemsForTag tc tag).filter (fun r => decide (r.path = p)) := by
  unfold tagPathRows getSavedItemsForTag
  rw [List.filter_filter]
  apply List.filter_congr
  intro r _
  by_cases h1 : r.dir = tag.directory <;>
    by_cases h2 : r.branch = tag.branch <;>
    by_cases h3 : r.artifactId = tag.artifactId <;>
    by_cases h4 : r.path = p <;>
    simp [h1, h2, h3, h4]

theorem filter_path_eq_singleton_of_pairwise (S : List TagCatalogRow)
    (hp : S.Pairwise (fun a b => a.path ≠ b.path)) (r : TagCatalogRow)
    (hr : r ∈ S) :
    S.filter (fun x => decide (x.path = r.path)) = [r] := by
  induction S with
  | nil => cases hr
  | cons r0 rest ih =>
    rw [List.pairwise_cons] at hp
    rcases List.mem_cons.mp hr with he | hm
    · subst he
      rw [List.filter_cons, if_pos (by simp)]
      have : rest.filter (fun x => decide (x.path = r.path)) = [] := by
        rw [List.filter_eq_nil_iff]
        intro x hx
        simp only [decide_eq_true_eq]
        intro hpx
        exact hp.1 x hx hpx.symm
      rw [this]
    · have hne : r0.path ≠ r.path := fun he => hp.1 r hm he
      rw [List.filter_cons, if_neg (by simpa using hne)]
      exact ih hp.2 hm

theorem assocGet_filter_keep {α : Type} (l : List (String × α))
    (pred : String × α → Bool) (p : String)
    (h : ∀ q ∈ l, q.1 = p → pred q = true) :
    assocGet (l.filter pred) p = assocGet l p := by
  induction l with
  | nil => rfl
  | cons q l ih =>
    by_cases hq : q.1 = p
    · rw [List.filter_cons, if_pos (h q (by simp) hq)]
      unfold assocGet
      rw [List.find?_cons, List.find?_cons]
      have : (q.1 == p) = true := by simpa using hq
      rw [this]
    · have hb : (q.1 == p) = false := by simpa using hq
      rw [List.filter_cons]
      split
      · unfold assocGet
        rw [List.find?_cons, List.find?_cons, hb]
        exact ih (fun x hx hxp => h x (by simp [hx]) hxp)
      · rw [ih (fun x hx hxp => h x (by simp [hx]) hxp)]
        unfold assocGet
        rw [List.find?_cons, hb]

theorem assocGet_filter_drop {α : Type} (l : List (String × α))
    (pred : String × α → Bool) (p : String)
    (h : ∀ q ∈ l, q.1 = p → pred q = false) :
    assocGet (l.filter pred) p = none := by
  induction l with
  | nil => rfl
  | cons q l ih =>
    by_cases hq : q.1 = p
    · rw [List.filter_cons, h q (by simp) hq]
      simp only [Bool.false_eq_true, if_false]
      exact ih (fun x hx hxp => h x (by simp [hx]) hxp)
    · have hb : (q.1 == p) = false := by simpa using hq
      rw [List.filter_cons]
      split
      · unfold assocGet
        rw [List.find?_cons, hb]
        exact ih (fun x hx hxp => h x (by simp [hx]) hxp)
      · exact ih (fun x hx hxp => h x (by simp [hx]) hxp)

theorem flatMap_filter_path (S : List TagCatalogRow)
    (f : TagCatalogRow → List PathAndCacheKey)
    (hf : ∀ r, ∀ it ∈ f r, it.path = r.path)
    (hp : S.Pairwise (fun a b => a.path ≠ b.path)) (p : String) :
    (S.flatMap f).filter (fun it => decide (it.path = p)) =
      match S.find? (fun r => decide (r.path = p)) with
      | none => []
      | some r => f r := by
  induction S with
  | nil => rfl
  | cons r0 rest ih =>
    rw [List.pairwise_cons] at hp
    rw [List.flatMap_cons, List.filter_append, List.find?_cons]
    by_cases h0 : r0.path = p
    · have hd : decide (r0.path = p) = true := by simpa using h0
      rw [hd]
      have hfr : (f r0).filter (fun it => decide (it.path = p)) = f r0 := by
        rw [List.filter_eq_self]
        intro it hit
        simpa using (hf r0 it hit).trans h0
      have hrest : (rest.flatMap f).filter
          (fun it => decide (it.path = p)) = [] := by
        rw [List.filter_eq_nil_iff]
        intro it hit
        simp only [decide_eq_true_eq]
        rw [List.mem_flatMap] at hit
        obtain ⟨r1, hr1, hit1⟩ := hit
        rw [hf r1 it hit1]
        intro hp1
        exact hp.1 r1 hr1 (h0 ▸ hp1.symm ▸ rfl)
      rw [hfr, hrest, List.append_nil]
    · have hd : decide (r0.path = p) = false := by simpa using h0
      rw [hd]
      have hfr : (f r0).filter (fun it => decide (it.path = p)) = [] := by
        rw [List.filter_eq_nil_iff]
        intro it hit
        simp only [decide_eq_true_eq]
        rw [hf r0 it hit]
        exact h0
      rw [hfr, List.nil_append]
      exact ih hp.2

theorem filter_key_eq {α : Type} (l : List (String × α)) (p : String)
    (hnd : (l.map Prod.fst).Nodup) :
    l.filter (fun q => decide (q.1 = p)) =
      match l.find? (fun q => q.1 == p) with
      | none => []
      | some e => [e] := by
  induction l with
  | nil => rfl
  | cons q l ih =>
    rw [List.map_cons, List.nodup_cons] at hnd
    rw [List.filter_cons, List.find?_cons]
    by_cases hq : q.1 = p
    · have hb : (q.1 == p) = true := by simpa using hq
      rw [hb, if_pos (by simpa using hq)]
      have : l.filter (fun x => decide (x.1 = p)) = [] := by
        rw [List.filter_eq_nil_iff]
        intro x hx
        simp only [decide_eq_true_eq]
        intro hxp
        exact hnd.1 (by
          rw [hq, ← hxp]
          exact List.mem_map_of_mem Prod.fst hx)
      rw [this]
    · have hb : (q.1 == p) = false := by simpa using hq
      rw [hb, if_neg (by simpa using hq)]
      exact ih hnd.2

/-- Effect of one `REPLACE` on a `(tag, path)` cell. -/
def projReplaceOp (tag : IndexTag) (ts : Nat) (rows : List TagCatalogRow)
    (it : PathAndCacheKey) : List TagCatalogRow :=
  rows.filter (fun r => decide (r.cacheKey ≠ it.cacheKey)) ++
    [⟨tag.directory, tag.branch, tag.artifactId, it.path, it.cacheKey, ts⟩]

/-- Effect of one `DELETE` on a `(tag, path)` cell. -/
def projDeleteOp (rows : List TagCatalogRow) (it : PathAndCacheKey) :
    List TagCatalogRow :=
  rows.filter (fun r => decide (r.cacheKey ≠ it.cacheKey))

theorem tagPathRows_replaceTagCatalog (tc : List TagCatalogRow)
    (tag : IndexTag) (q k : String) (ts : Nat) (p : String) :
    tagPathRows (replaceTagCatalog tc tag q k ts) tag p =
      if q = p then projReplaceOp tag ts (tagPathRows tc tag p) ⟨q, k⟩
      else tagPathRows tc tag p := by
  unfold replaceTagCatalog tagPathRows projReplaceOp
  rw [List.filter_append]
  by_cases hq : q = p
  · subst hq
    rw [if_pos rfl]
    have hsing : List.filter (fun r => decide (r.dir = tag.directory ∧
        r.branch = tag.branch ∧ r.artifactId = tag.artifactId ∧ r.path = q))
        ([⟨tag.directory, tag.branch, tag.artifactId, q, k, ts⟩] :
          List TagCatalogRow) =
        [⟨tag.directory, tag.branch, tag.artifactId, q, k, ts⟩] := by
      simp
    rw [hsing]
    congr 1
    rw [List.filter_filter, List.filter_filter]
    apply List.filter_congr
    intro r _
    by_cases h1 : r.dir = tag.directory <;>
      by_cases h2 : r.branch = tag.branch <;>
      by_cases h3 : r.artifactId = tag.artifactId <;>
      by_cases h4 : r.path = q <;>
      by_cases h5 : r.cacheKey = k <;>
      simp [tcTuple, Prod.ext_iff, h1, h2, h3, h4, h5]
  · rw [if_neg hq]
    have hsing : List.filter (fun r => decide (r.dir = tag.directory ∧
        r.branch = tag.branch ∧ r.artifactId = tag.artifactId ∧ r.path = p))
        ([⟨tag.directory, tag.branch, tag.artifactId, q, k, ts⟩] :
          List TagCatalogRow) = [] := by
      simp [hq]
    rw [hsing, List.append_nil, List.filter_filter]
    apply List.filter_congr
    intro r _
    have hq2 : p ≠ q := Ne.symm hq
    by_cases h1 : r.dir = tag.directory <;>
      by_cases h2 : r.branch = tag.branch <;>
      by_cases h3 : r.artifactId = tag.artifactId <;>
      by_cases h4 : r.path = p <;>
      simp [tcTuple, Prod.ext_iff, h1, h2, h3, h4, hq2]

theorem tagPathRows_deleteTagCatalog (tc : List TagCatalogRow)
    (tag : IndexTag) (q k : String) (p : String) :
    tagPathRows (deleteTagCatalog tc tag q k) tag p =
      if q = p then projDeleteOp (tagPathRows tc tag p) ⟨q, k⟩
      else tagPathRows tc tag p := by
  unfold deleteTagCatalog tagPathRows projDeleteOp
  by_cases hq : q = p
  · subst hq
    rw [if_pos rfl]
    rw [List.filter_filter, List.filter_filter]
    apply List.filter_congr
    intro r _
    by_cases h1 : r.dir = tag.directory <;>
      by_cases h2 : r.branch = tag.branch <;>
      by_cases h3 : r.artifactId = tag.artifactId <;>
      by_cases h4 : r.path = q <;>
      by_cases h5 : r.cacheKey = k <;>
      simp [tcTuple, Prod.ext_iff, h1, h2, h3, h4, h5]
  · rw [if_neg hq, List.filter_filter]
    apply List.filter_congr
    intro r _
    have hq2 : p ≠ q := Ne.symm hq
    by_cases h1 : r.dir = tag.directory <;>
      by_cases h2 : r.branch = tag.branch <;>
      by_cases h3 : r.artifactId = tag.artifactId <;>
      by_cases h4 : r.path = p <;>
      simp [tcTuple, Prod.ext_iff, h1, h2, h3, h4, hq2]

theorem markComplete_addTag_eq_compute (tag : IndexTag) (ts : Nat)
    (tc : List TagCatalogRow) (items : List PathAndCacheKey) :
    markCompleteTagCatalog tag ts tc items .addTag =
      markCompleteTagCatalog tag ts tc items .compute := rfl

theorem markComplete_removeTag_eq_del (tag : IndexTag) (ts : Nat)
    (tc : List TagCatalogRow) (items : List PathAndCacheKey) :
    markCompleteTagCatalog tag ts tc items .removeTag =
      markCompleteTagCatalog tag ts tc items .del := rfl

theorem tagPathRows_markComplete_compute (tag : IndexTag) (ts : Nat)
    (items : List PathAndCacheKey) :
    ∀ (tc : List TagCatalogRow) (p : String),
    tagPathRows (markCompleteTagCatalog tag ts tc items .compute) tag p =
      (items.filter (fun it => decide (it.path = p))).foldl
        (projReplaceOp tag ts) (tagPathRows tc tag p) := by
  induction items with
  | nil => intro tc p; rfl
  | cons it rest ih =>
    intro tc p
    show tagPathRows (markCompleteTagCatalog tag ts
        (replaceTagCatalog tc tag it.path it.cacheKey ts) rest .compute)
        tag p = _
    rw [ih]
    rw [tagPathRows_replaceTagCatalog]
    rw [List.filter_cons]
    by_cases hp : it.path = p
    · rw [if_pos hp]
      have hd : decide (it.path = p) = true := by simpa using hp
      rw [hd, if_pos rfl, List.foldl_cons]
    · rw [if_neg hp]
      have hd : decide (it.path = p) = false := by simpa using hp
      rw [hd]
      simp only [Bool.false_eq_true, if_false]

theorem tagPathRows_markComplete_del (tag : IndexTag) (ts : Nat)
    (items : List PathAndCacheKey) :
    ∀ (tc : List TagCatalogRow) (p : String),
    tagPathRows (markCompleteTagCatalog tag ts tc items .del) tag p =
      (items.filter (fun it => decide (it.path = p))).foldl
        projDeleteOp (tagPathRows tc tag p) := by
  induction items with
  | nil => intro tc p; rfl
  | cons it rest ih =>
    intro tc p
    show tagPathRows (markCompleteTagCatalog tag ts
        (deleteTagCatalog tc tag it.path it.cacheKey) rest .del) tag p = _
    rw [ih]
    rw [tagPathRows_deleteTagCatalog]
    rw [List.filter_cons]
    by_cases hp : it.path = p
    · rw [if_pos hp]
      have hd : decide (it.path = p) = true := by simpa using hp
      rw [hd, if_pos rfl, List.foldl_cons]
    · rw [if_neg hp]
      have hd : decide (it.path = p) = false := by simpa using hp
      rw [hd]
      simp only [Bool.false_eq_true, if_false]

theorem tcUnique_markCompleteTagCatalog (tag : IndexTag) (ts : Nat)
    (items : List PathAndCacheKey) (rt : IndexResultType) :
    ∀ tc : List TagCatalogRow, tcUnique tc →
      tcUnique (markCompleteTagCatalog tag ts tc items rt) := by
  induction items with
  | nil => intro tc h; exact h
  | cons it rest ih =>
    intro tc h
    cases rt with
    | compute => exact ih _ (tcUnique_replaceTagCatalog tc h tag _ _ ts)
    | addTag => exact ih _ (tcUnique_replaceTagCatalog tc h tag _ _ ts)
    | del => exact ih _ (tcUnique_filter tc h _)
    | removeTag => exact ih _ (tcUnique_filter tc h _)
    | updateLastUpdated =>
      exact ih _ (tcUnique_updateTagCatalog tc h tag _ _ ts)

/-- The pointwise rewrite performed by the `UPDATE` statement. -/
def updFun (tag : IndexTag) (q k : String) (ts : Nat) (r : TagCatalogRow) :
    TagCatalogRow :=
  if r.path = q ∧ r.dir = tag.directory ∧ r.branch = tag.branch ∧
      r.artifactId = tag.artifactId
  then { r with cacheKey := k, lastUpdated := ts } else r

theorem filter_map_eq_of_pointwise {α : Type} (f : α → α) (pred : α → Bool)
    (l : List α)
    (h : ∀ a ∈ l, pred (f a) = pred a ∧ (pred a = true → f a = a)) :
    (l.map f).filter pred = l.filter pred := by
  induction l with
  | nil => rfl
  | cons a l ih =>
    rw [List.map_cons, List.filter_cons, List.filter_cons,
      (h a (by simp)).1]
    have ih2 := ih (fun b hb => h b (by simp [hb]))
    cases hp : pred a with
    | false => simpa [hp] using ih2
    | true =>
      rw [(h a (by simp)).2 hp]
      simp only [if_pos rfl]
      rw [ih2]

theorem filter_map_eq_map_of_pointwise {α : Type} (f g : α → α)
    (pred : α → Bool) (l : List α)
    (h : ∀ a ∈ l, pred (f a) = pred a ∧ (pred a = true → f a = g a)) :
    (l.map f).filter pred = (l.filter pred).map g := by
  induction l with
  | nil => rfl
  | cons a l ih =>
    rw [List.map_cons, List.filter_cons, List.filter_cons,
      (h a (by simp)).1]
    have ih2 := ih (fun b hb => h b (by simp [hb]))
    cases hp : pred a with
    | false => simpa [hp] using ih2
    | true =>
      rw [(h a (by simp)).2 hp]
      simp [hp, ih2]

theorem updateTagCatalog_benign (tc : List TagCatalogRow) (tag : IndexTag)
    (q k : String) (ts : Nat) (huniq : tcUnique tc)
    (hkeys : ∀ r ∈ tagPathRows tc tag q, r.cacheKey = k) :
    updateTagCatalog tc tag q k ts = tc.map (updFun tag q k ts) := by
  have htuple : ∀ r ∈ tc, tcTuple (updFun tag q k ts r) = tcTuple r := by
    intro r hr
    unfold updFun
    split
    · rename_i hcond
      have hmem : r ∈ tagPathRows tc tag q := by
        unfold tagPathRows
        rw [List.mem_filter]
        exact ⟨hr, by
          simp only [decide_eq_true_eq]
          exact ⟨hcond.2.1, hcond.2.2.1, hcond.2.2.2, hcond.1⟩⟩
      have := hkeys r hmem
      simp [tcTuple, this]
    · rfl
  have hu2 : tcUnique (tc.map (updFun tag q k ts)) := by
    unfold tcUnique
    rw [List.pairwise_map]
    exact huniq.imp_of_mem (fun {a b} ha hb hab => by
      rw [htuple a ha, htuple b hb]; exact hab)
  show (if tcUnique (tc.map (updFun tag q k ts))
    then tc.map (updFun tag q k ts) else tc) = tc.map (updFun tag q k ts)
  rw [if_pos hu2]

theorem tagPathRows_map_updFun_other (tc : List TagCatalogRow)
    (tag : IndexTag) (q k : String) (ts : Nat) (p : String) (h : q ≠ p) :
    tagPathRows (tc.map (updFun tag q k ts)) tag p = tagPathRows tc tag p := by
  unfold tagPathRows
  apply filter_map_eq_of_pointwise
  intro a _
  by_cases hc : a.path = q ∧ a.dir = tag.directory ∧ a.branch = tag.branch ∧
      a.artifactId = tag.artifactId
  · have hfp : ¬ a.path = p := fun hp => h (hc.1.symm.trans hp)
    constructor
    · simp [updFun, hc, hfp]
    · intro hp
      simp [hfp] at hp
  · simp [updFun, hc]

theorem tagPathRows_map_updFun_same (tc : List TagCatalogRow)
    (tag : IndexTag) (q k : String) (ts : Nat) :
    tagPathRows (tc.map (updFun tag q k ts)) tag q =
      (tagPathRows tc tag q).map
        (fun r => { r with cacheKey := k, lastUpdated := ts }) := by
  unfold tagPathRows
  apply filter_map_eq_map_of_pointwise
  intro a _
  by_cases hc : a.path = q ∧ a.dir = tag.directory ∧ a.branch = tag.branch ∧
      a.artifactId = tag.artifactId
  · constructor
    · simp [updFun, hc]
    · intro _
      simp [updFun, hc]
  · constructor
    · simp [updFun, hc]
    · intro hp
      simp only [decide_eq_true_eq] at hp
      exact absurd ⟨hp.2.2.2, hp.1, hp.2.1, hp.2.2.1⟩ hc

theorem find?_eq_head?_filter {α : Type} (pr : α → Bool) (l : List α) :
    l.find? pr = (l.filter pr).head? := by
  induction l with
  | nil => rfl
  | cons a l ih =>
    rw [List.find?_cons, List.filter_cons]
    cases hp : pr a with
    | true => simp
    | false => exact ih

theorem tagPathRows_markComplete_touch (tag : IndexTag) (ts : Nat) :
    ∀ (items : List PathAndCacheKey) (tc : List TagCatalogRow) (p : String),
    tcUnique tc →
    (∀ it ∈ items, ∀ r ∈ tagPathRows tc tag it.path,
      r.cacheKey = it.cacheKey) →
    (items.map PathAndCacheKey.path).Nodup →
    tagPathRows (markCompleteTagCatalog tag ts tc items .updateLastUpdated)
        tag p =
      match items.find? (fun it => decide (it.path = p)) with
      | none => tagPathRows tc tag p
      | some it => (tagPathRows tc tag p).map
          (fun r => { r with cacheKey := it.cacheKey, lastUpdated := ts }) := by
  intro items
  induction items with
  | nil =>
    intro tc p _ _ _
    rfl
  | cons it0 rest ih =>
    intro tc p huniq hsingle hnd
    rw [List.map_cons, List.nodup_cons] at hnd
    have hb : updateTagCatalog tc tag it0.path it0.cacheKey ts =
        tc.map (updFun tag it0.path it0.cacheKey ts) :=
      updateTagCatalog_benign tc tag it0.path it0.cacheKey ts huniq
        (hsingle it0 (by simp))
    have hu1 : tcUnique (updateTagCatalog tc tag it0.path it0.cacheKey ts) :=
      tcUnique_updateTagCatalog tc huniq tag it0.path it0.cacheKey ts
    have hstep : markCompleteTagCatalog tag ts tc (it0 :: rest)
        .updateLastUpdated = markCompleteTagCatalog tag ts
        (updateTagCatalog tc tag it0.path it0.cacheKey ts) rest
        .updateLastUpdated := rfl
    have hrestkeys : ∀ it ∈ rest,
        ∀ r ∈ tagPathRows (updateTagCatalog tc tag it0.path it0.cacheKey ts)
          tag it.path, r.cacheKey = it.cacheKey := by
      intro it hit r hr
      have hne : it0.path ≠ it.path := fun he => hnd.1 (by
        rw [he]; exact List.mem_map_of_mem PathAndCacheKey.path hit)
      rw [hb, tagPathRows_map_updFun_other _ _ _ _ _ _ hne] at hr
      exact hsingle it (by simp [hit]) r hr
    rw [hstep, ih _ p hu1 hrestkeys hnd.2]
    by_cases h0p : it0.path = p
    · subst h0p
      have hfind : (it0 :: rest).find?
          (fun it => decide (it.path = it0.path)) = some it0 := by
        simp [List.find?_cons]
      have hrn : rest.find?
          (fun it => decide (it.path = it0.path)) = none := by
        rw [List.find?_eq_none]
        intro it hit
        simp only [decide_eq_true_eq]
        intro hip
        exact hnd.1 (by
          rw [← hip]
          exact List.mem_map_of_mem PathAndCacheKey.path hit)
      simp only [hfind, hrn]
      rw [hb]
      exact tagPathRows_map_updFun_same tc tag it0.path it0.cacheKey ts
    · have hfind : (it0 :: rest).find? (fun it => decide (it.path = p)) =
          rest.find? (fun it => decide (it.path = p)) := by
        have hd : decide (it0.path = p) = false := by simpa using h0p
        simp [List.find?_cons, hd]
      have hproj : tagPathRows (updateTagCatalog tc tag it0.path
          it0.cacheKey ts) tag p = tagPathRows tc tag p := by
        rw [hb]
        exact tagPathRows_map_updFun_other _ _ _ _ _ _ h0p
      rw [hfind, hproj]

theorem rowUpdateNew_path (files : FileStatsMap)
    (readFile hash : String → String) (r : TagCatalogRow)
    (it : PathAndCacheKey) (h : it ∈ rowUpdateNew files readFile hash r) :
    it.path = r.path := by
  unfold rowUpdateNew at h
  split at h
  · cases h
  · split at h
    · split at h
      · rw [List.mem_singleton] at h
        rw [h]
      · cases h
    · cases h

theorem rowUpdateOld_path (files : FileStatsMap)
    (readFile hash : String → String) (r : TagCatalogRow)
    (it : PathAndCacheKey) (h : it ∈ rowUpdateOld files readFile hash r) :
    it.path = r.path := by
  unfold rowUpdateOld at h
  split at h
  · cases h
  · split at h
    · split at h
      · rw [List.mem_singleton] at h
        rw [h]
      · cases h
    · cases h

theorem rowTouch_path (files : FileStatsMap)
    (readFile hash : String → String) (r : TagCatalogRow)
    (it : PathAndCacheKey) (h : it ∈ rowTouch files readFile hash r) :
    it.path = r.path := by
  unfold rowTouch at h
  split at h
  · cases h
  · split at h
    · split at h
      · cases h
      · rw [List.mem_singleton] at h
        rw [h]
    · cases h

theorem rowRemove_path (files : FileStatsMap) (r : TagCatalogRow)
    (it : PathAndCacheKey) (h : it ∈ rowRemove files r) :
    it.path = r.path := by
  unfold rowRemove at h
  split at h
  · rw [List.mem_singleton] at h
    rw [h]
  · cases h

theorem mapmk_filter_path (l : FileStatsMap)
    (readFile hash : String → String) (p : String)
    (hnd : (l.map Prod.fst).Nodup) :
    (l.map (fun q => (⟨q.1, hash (readFile q.1)⟩ : PathAndCacheKey))).filter
      (fun it => decide (it.path = p)) =
      match assocGet l p with
      | none => []
      | some _ => [⟨p, hash (readFile p)⟩] := by
  induction l with
  | nil => rfl
  | cons q l ih =>
    rw [List.map_cons, List.nodup_cons] at hnd
    rw [List.map_cons, List.filter_cons]
    show (if decide (q.1 = p) = true then _ else _) = _
    by_cases hq : q.1 = p
    · rw [if_pos (by simpa using hq)]
      have hnone : assocGet l p = none := by
        rw [assocGet_eq_none_iff]
        intro x hx hxp
        exact hnd.1 (by
          rw [hq, ← hxp]
          exact List.mem_map_of_mem Prod.fst hx)
      rw [ih hnd.2, hnone]
      have hget : assocGet (q :: l) p = some q.2 := by
        unfold assocGet
        rw [List.find?_cons]
        have hb : (q.1 == p) = true := by simpa using hq
        rw [hb]
        rfl
      rw [hget, hq]
    · rw [if_neg (by simpa using hq)]
      have hget : assocGet (q :: l) p = assocGet l p := by
        unfold assocGet
        rw [List.find?_cons]
        have hb : (q.1 == p) = false := by simpa using hq
        rw [hb]
      rw [hget, ih hnd.2]

theorem addList_filter_path (S : List TagCatalogRow) (ff : FileStatsMap)
    (readFile hash : String → String) (p : String)
    (hnd : (ff.map Prod.fst).Nodup)
    (hp : S.Pairwise (fun a b => a.path ≠ b.path)) :
    ((ff.filter (fun q => decide (¬ q.1 ∈ S.map TagCatalogRow.path))).map
        (fun q => (⟨q.1, hash (readFile q.1)⟩ : PathAndCacheKey)) ++
      S.flatMap (rowUpdateNew ff readFile hash)).filter
        (fun it => decide (it.path = p)) =
      match S.find? (fun r => decide (r.path = p)) with
      | none =>
        match assocGet ff p with
        | none => []
        | some _ => [⟨p, hash (readFile p)⟩]
      | some r => rowUpdateNew ff readFile hash r := by
  rw [List.filter_append]
  rw [flatMap_filter_path S _ (rowUpdateNew_path ff readFile hash) hp p]
  have hndl : ((ff.filter (fun q =>
      decide (¬ q.1 ∈ S.map TagCatalogRow.path))).map Prod.fst).Nodup :=
    hnd.sublist ((List.filter_sublist ff).map Prod.fst)
  rw [mapmk_filter_path _ readFile hash p hndl]
  cases hfind : S.find? (fun r => decide (r.path = p)) with
  | some r =>
    have hrp : r.path = p := by simpa using List.find?_some hfind
    have hrS : r ∈ S := List.mem_of_find?_eq_some hfind
    have hdrop : assocGet (ff.filter (fun q =>
        decide (¬ q.1 ∈ S.map TagCatalogRow.path))) p = none := by
      apply assocGet_filter_drop
      intro q _ hqp
      simp only [decide_eq_false_iff_not, not_not]
      rw [hqp, ← hrp]
      exact List.mem_map_of_mem TagCatalogRow.path hrS
    rw [hdrop]
    rw [List.nil_append]
  | none =>
    have hnot : ∀ r ∈ S, r.path ≠ p := by
      intro r hr
      have := List.find?_eq_none.mp hfind r hr
      simpa using this
    have hkeep : assocGet (ff.filter (fun q =>
        decide (¬ q.1 ∈ S.map TagCatalogRow.path))) p = assocGet ff p := by
      apply assocGet_filter_keep
      intro q _ hqp
      simp only [decide_eq_true_eq]
      rw [hqp]
      intro hmem
      rw [List.mem_map] at hmem
      obtain ⟨r, hr, hrp⟩ := hmem
      exact hnot r hr hrp
    rw [hkeep, List.append_nil]

theorem removeList_filter_path (S : List TagCatalogRow) (ff : FileStatsMap)
    (readFile hash : String → String) (p : String)
    (hp : S.Pairwise (fun a b => a.path ≠ b.path)) :
    (S.flatMap (rowRemove ff) ++
      S.flatMap (rowUpdateOld ff readFile hash)).filter
        (fun it => decide (it.path = p)) =
      match S.find? (fun r => decide (r.path = p)) with
      | none => []
      | some r => rowRemove ff r ++ rowUpdateOld ff readFile hash r := by
  rw [List.filter_append]
  rw [flatMap_filter_path S _ (fun r it h => rowRemove_path ff r it h) hp p]
  rw [flatMap_filter_path S _ (rowUpdateOld_path ff readFile hash) hp p]
  cases hfind : S.find? (fun r => decide (r.path = p)) <;> rfl

theorem touchList_filter_path (S : List TagCatalogRow) (ff : FileStatsMap)
    (readFile hash : String → String) (p : String)
    (hp : S.Pairwise (fun a b => a.path ≠ b.path)) :
    (S.flatMap (rowTouch ff readFile hash)).filter
        (fun it => decide (it.path = p)) =
      match S.find? (fun r => decide (r.path = p)) with
      | none => []
      | some r => rowTouch ff readFile hash r :=
  flatMap_filter_path S _ (rowTouch_path ff readFile hash) hp p

theorem saved_filter_cases (S : List TagCatalogRow)
    (hone : S.Pairwise (fun a b => a.path ≠ b.path)) (p : String) :
    S.filter (fun r => decide (r.path = p)) = [] ∨
      ∃ r, r ∈ S ∧ r.path = p ∧
        S.filter (fun r => decide (r.path = p)) = [r] := by
  cases hf : S.filter (fun r => decide (r.path = p)) with
  | nil => exact Or.inl rfl
  | cons r t =>
    refine Or.inr ⟨r, ?_, ?_, ?_⟩
    · have : r ∈ S.filter (fun r => decide (r.path = p)) := by simp [hf]
      exact (List.mem_filter.mp this).1
    · have : r ∈ S.filter (fun r => decide (r.path = p)) := by simp [hf]
      simpa using (List.mem_filter.mp this).2
    · cases ht : t with
      | nil => rfl
      | cons t0 t1 =>
        exfalso
        have hpw : (S.filter (fun r => decide (r.path = p))).Pairwise
            (fun a b => a.path ≠ b.path) :=
          hone.sublist (List.filter_sublist S)
        rw [hf, ht, List.pairwise_cons] at hpw
        have ht0 : t0 ∈ S.filter (fun r => decide (r.path = p)) := by
          simp [hf, ht]
        have hrmem : r ∈ S.filter (fun r => decide (r.path = p)) := by
          simp [hf]
        have h1 : r.path = p := by
          simpa using (List.mem_filter.mp hrmem).2
        have h2 : t0.path = p := by
          simpa using (List.mem_filter.mp ht0).2
        exact hpw.1 t0 (by simp) (h1.trans h2.symm)

theorem rowTouch_mem_spec (files : FileStatsMap)
    (readFile hash : String → String) (r : TagCatalogRow)
    (it : PathAndCacheKey) (h : it ∈ rowTouch files readFile hash r) :
    it = ⟨r.path, r.cacheKey⟩ ∧
      ∃ stat, assocGet files r.path = some stat ∧
        r.lastUpdated < stat.lastModified ∧
        r.cacheKey = hash (readFile r.path) := by
  unfold rowTouch at h
  split at h
  · cases h
  · rename_i stat heq
    split at h
    · rename_i h1
      split at h
      · cases h
      · rename_i h2
        rw [List.mem_singleton] at h
        exact ⟨h, stat, heq, h1, not_not.mp h2⟩
    · cases h

theorem rowTouch_length (files : FileStatsMap)
    (readFile hash : String → String) (r : TagCatalogRow) :
    (rowTouch files readFile hash r).length ≤ 1 := by
  unfold rowTouch
  split
  · simp
  · split
    · split <;> simp
    · simp

theorem assocGet_some_mem {α : Type} (l : List (String × α)) (k : String)
    (v : α) (h : assocGet l k = some v) :
    ∃ q ∈ l, q.1 = k ∧ q.2 = v := by
  unfold assocGet at h
  rcases hf : l.find? (fun p => p.1 == k) with _ | q
  · rw [hf] at h
    cases h
  · rw [hf] at h
    refine ⟨q, List.mem_of_find?_eq_some hf, ?_, ?_⟩
    · simpa using List.find?_some hf
    · simpa using h

theorem mem_assocGet_of_nodup {α : Type} (l : List (String × α))
    (hnd : (l.map Prod.fst).Nodup) (q : String × α) (hq : q ∈ l) :
    assocGet l q.1 = some q.2 := by
  induction l with
  | nil => cases hq
  | cons x l ih =>
    rw [List.map_cons, List.nodup_cons] at hnd
    rcases List.mem_cons.mp hq with he | hm
    · subst he
      unfold assocGet
      rw [List.find?_cons]
      have : (q.1 == q.1) = true := by simp
      rw [this]
      rfl
    · have hne : x.1 ≠ q.1 := by
        intro he
        exact hnd.1 (he ▸ List.mem_map_of_mem Prod.fst hm)
      unfold assocGet
      rw [List.find?_cons]
      have : (x.1 == q.1) = false := by simpa using hne
      rw [this]
      exact ih hnd.2 hm

theorem flatMap_paths_nodup (S : List TagCatalogRow)
    (f : TagCatalogRow → List PathAndCacheKey)
    (hf : ∀ r, ∀ it ∈ f r, it.path = r.path)
    (hlen : ∀ r, (f r).length ≤ 1)
    (hp : S.Pairwise (fun a b => a.path ≠ b.path)) :
    ((S.flatMap f).map PathAndCacheKey.path).Nodup := by
  induction S with
  | nil => simp
  | cons r rest ih =>
    rw [List.pairwise_cons] at hp
    rw [List.flatMap_cons, List.map_append]
    rw [List.nodup_append]
    refine ⟨?_, ih hp.2, ?_⟩
    · rcases hfe : f r with _ | ⟨it, t⟩
      · simp
      · have := hlen r
        rw [hfe] at this
        simp only [List.length_cons] at this
        have ht : t = [] := by
          cases t with
          | nil => rfl
          | cons a b => simp at this
        rw [ht]
        simp
    · intro a ha hb
      rw [List.mem_map] at ha hb
      obtain ⟨ita, hita, hpa⟩ := ha
      obtain ⟨itb, hitb, hpb⟩ := hb
      rw [List.mem_flatMap] at hitb
      obtain ⟨rb, hrb, hitb2⟩ := hitb
      have : r.path = rb.path := by
        rw [← hf r ita hita, ← hf rb itb hitb2, hpa, hpb]
      exact hp.1 rb hrb this

theorem pairwise_path_of_filter_le_one (l : List TagCatalogRow)
    (h : ∀ p, (l.filter (fun r => decide (r.path = p))).length ≤ 1) :
    l.Pairwise (fun a b => a.path ≠ b.path) := by
  induction l with
  | nil => exact List.Pairwise.nil
  | cons r rest ih =>
    rw [List.pairwise_cons]
    constructor
    · intro b hb hpb
      have hle := h r.path
      rw [List.filter_cons, if_pos (by simp), List.length_cons] at hle
      have hnil : rest.filter (fun x => decide (x.path = r.path)) = [] :=
        List.length_eq_zero.mp (by omega)
      have hb2 : b ∈ rest.filter (fun x => decide (x.path = r.path)) := by
        rw [List.mem_filter]
        exact ⟨hb, by simpa using hpb.symm⟩
      rw [hnil] at hb2
      cases hb2
    · apply ih
      intro p
      have hle := h p
      rw [List.filter_cons] at hle
      split at hle
      · rw [List.length_cons] at hle
        omega
      · exact hle

theorem rowUpdateNew_none (files : FileStatsMap)
    (readFile hash : String → String) (r : TagCatalogRow)
    (h : assocGet files r.path = none) :
    rowUpdateNew files readFile hash r = [] := by
  unfold rowUpdateNew
  rw [h]

theorem rowUpdateOld_none (files : FileStatsMap)
    (readFile hash : String → String) (r : TagCatalogRow)
    (h : assocGet files r.path = none) :
    rowUpdateOld files readFile hash r = [] := by
  unfold rowUpdateOld
  rw [h]

theorem rowTouch_none (files : FileStatsMap)
    (readFile hash : String → String) (r : TagCatalogRow)
    (h : assocGet files r.path = none) :
    rowTouch files readFile hash r = [] := by
  unfold rowTouch
  rw [h]

theorem rowRemove_none (files : FileStatsMap) (r : TagCatalogRow)
    (h : assocGet files r.path = none) :
    rowRemove files r = [⟨r.path, r.cacheKey⟩] := by
  unfold rowRemove
  rw [h]

theorem rowRemove_some (files : FileStatsMap) (r : TagCatalogRow)
    (stat : FileStats) (h : assocGet files r.path = some stat) :
    rowRemove files r = [] := by
  unfold rowRemove
  rw [h]

theorem rowUpdateNew_some (files : FileStatsMap)
    (readFile hash : String → String) (r : TagCatalogRow) (stat : FileStats)
    (h : assocGet files r.path = some stat) :
    rowUpdateNew files readFile hash r =
      if r.lastUpdated < stat.lastModified then
        if r.cacheKey ≠ hash (readFile r.path) then
          [⟨r.path, hash (readFile r.path)⟩]
        else []
      else [] := by
  unfold rowUpdateNew
  rw [h]

theorem rowUpdateOld_some (files : FileStatsMap)
    (readFile hash : String → String) (r : TagCatalogRow) (stat : FileStats)
    (h : assocGet files r.path = some stat) :
    rowUpdateOld files readFile hash r =
      if r.lastUpdated < stat.lastModified then
        if r.cacheKey ≠ hash (readFile r.path) then [⟨r.path, r.cacheKey⟩]
        else []
      else [] := by
  unfold rowUpdateOld
  rw [h]

theorem rowTouch_some (files : FileStatsMap)
    (readFile hash : String → String) (r : TagCatalogRow) (stat : FileStats)
    (h : assocGet files r.path = some stat) :
    rowTouch files readFile hash r =
      if r.lastUpdated < stat.lastModified then
        if r.cacheKey ≠ hash (readFile r.path) then []
        else [⟨r.path, r.cacheKey⟩]
      else [] := by
  unfold rowTouch
  rw [h]

/-- The four classification-plan lists of the first refresh. -/
def planResults (tag : IndexTag) (st : DbState) (files : FileStatsMap)
    (readFile hash : String → String) : RefreshIndexResults :=
  (getComputeDeleteAddRemove tag st files readFile hash).1

/-- The tag catalog after the `compute`, `addTag`, `removeTag` and `del`
items of the plan have been completed (in that order). -/
def stage4Catalog (tag : IndexTag) (st : DbState) (files : FileStatsMap)
    (readFile hash : String → String) (ts1 : Nat) : List TagCatalogRow :=
  markCompleteTagCatalog tag ts1
    (markCompleteTagCatalog tag ts1
      (markCompleteTagCatalog tag ts1
        (markCompleteTagCatalog tag ts1 st.tagCatalog
          (planResults tag st files readFile hash).compute .compute)
        (planResults tag st files readFile hash).addTag .addTag)
      (planResults tag st files readFile hash).removeTag .removeTag)
    (planResults tag st files readFile hash).del .del

theorem runPlanCompletion_tagCatalog (tag : IndexTag) (st : DbState)
    (files : FileStatsMap) (readFile hash : String → String) (ts1 : Nat) :
    (runPlanCompletion tag ts1 st (planResults tag st files readFile hash)
        (getComputeDeleteAddRemove tag st files readFile hash).2).tagCatalog =
      markCompleteTagCatalog tag ts1
        (stage4Catalog tag st files readFile hash ts1)
        (getComputeDeleteAddRemove tag st files readFile hash).2
        .updateLastUpdated := rfl

/-- The expected `(tag, path)` cell after the four plan stages, as a
function of the file-map lookup and the cell's initial rows. -/
def expected4 (tag : IndexTag) (ff : FileStatsMap)
    (readFile hash : String → String) (ts1 : Nat) (p : String)
    (rows0 : List TagCatalogRow) : List TagCatalogRow :=
  match assocGet ff p, rows0 with
  | none, _ => []
  | some _, [] =>
    [⟨tag.directory, tag.branch, tag.artifactId, p, hash (readFile p), ts1⟩]
  | some stat, r :: _ =>
    if r.lastUpdated < stat.lastModified then
      if r.cacheKey ≠ hash (readFile p) then
        [⟨tag.directory, tag.branch, tag.artifactId, p,
          hash (readFile p), ts1⟩]
      else [r]
    else [r]

/-- The size-filtered file map (planner step 1). -/
def ffOf (files : FileStatsMap) : FileStatsMap :=
  files.filter (fun q => decide (q.2.size ≤ MAX_FILE_SIZE_BYTES))

/-- The planner's `add ++ updateNewVersion` list in closed form. -/
def addListOf (tag : IndexTag) (tc : List TagCatalogRow)
    (files : FileStatsMap) (readFile hash : String → String) :
    List PathAndCacheKey :=
  ((ffOf files).filter (fun q => decide (¬ q.1 ∈
      (getSavedItemsForTag tc tag).map TagCatalogRow.path))).map
    (fun q => (⟨q.1, hash (readFile q.1)⟩ : PathAndCacheKey)) ++
  (getSavedItemsForTag tc tag).flatMap
    (rowUpdateNew (ffOf files) readFile hash)

/-- The planner's `remove ++ updateOldVersion` list in closed form. -/
def removeListOf (tag : IndexTag) (tc : List TagCatalogRow)
    (files : FileStatsMap) (readFile hash : String → String) :
    List PathAndCacheKey :=
  (getSavedItemsForTag tc tag).flatMap (rowRemove (ffOf files)) ++
  (getSavedItemsForTag tc tag).flatMap
    (rowUpdateOld (ffOf files) readFile hash)

/-- The planner's `updateLastUpdated` list in closed form. -/
def touchListOf (tag : IndexTag) (tc : List TagCatalogRow)
    (files : FileStatsMap) (readFile hash : String → String) :
    List PathAndCacheKey :=
  (getSavedItemsForTag tc tag).flatMap
    (rowTouch (ffOf files) readFile hash)

theorem getAddRemoveForTag_eq2 (tag : IndexTag) (tc : List TagCatalogRow)
    (files : FileStatsMap) (readFile hash : String → String)
    (hone : (getSavedItemsForTag tc tag).Pairwise
      (fun a b => a.path ≠ b.path)) :
    getAddRemoveForTag tag tc files readFile hash =
      ⟨addListOf tag tc files readFile hash,
       removeListOf tag tc files readFile hash,
       touchListOf tag tc files readFile hash⟩ :=
  getAddRemoveForTag_eq tag tc files readFile hash hone

theorem planResults_eq (tag : IndexTag) (st : DbState)
    (files : FileStatsMap) (readFile hash : String → String)
    (hone : (getSavedItemsForTag st.tagCatalog tag).Pairwise
      (fun a b => a.path ≠ b.path)) :
    planResults tag st files readFile hash =
      ⟨(addListOf tag st.tagCatalog files readFile hash).filter
          (fun i => decide (¬ (getTagsFromGlobalCache st.globalCache
            i.cacheKey tag.artifactId).length > 0)),
        (removeListOf tag st.tagCatalog files readFile hash).filter
          (fun i => decide (¬ (getTagsFromGlobalCache st.globalCache
            i.cacheKey tag.artifactId).length > 1)),
        (addListOf tag st.tagCatalog files readFile hash).filter
          (fun i => decide ((getTagsFromGlobalCache st.globalCache
            i.cacheKey tag.artifactId).length > 0)),
        (removeListOf tag st.tagCatalog files readFile hash).filter
          (fun i => decide ((getTagsFromGlobalCache st.globalCache
            i.cacheKey tag.artifactId).length > 1))⟩ := by
  simp only [planResults, getComputeDeleteAddRemove]
  rw [getAddRemoveForTag_eq2 tag st.tagCatalog files readFile hash hone]

theorem planTouch_eq (tag : IndexTag) (st : DbState)
    (files : FileStatsMap) (readFile hash : String → String)
    (hone : (getSavedItemsForTag st.tagCatalog tag).Pairwise
      (fun a b => a.path ≠ b.path)) :
    (getComputeDeleteAddRemove tag st files readFile hash).2 =
      touchListOf tag st.tagCatalog files readFile hash := by
  simp only [getComputeDeleteAddRemove]
  rw [getAddRemoveForTag_eq2 tag st.tagCatalog files readFile hash hone]

theorem addListOf_filter_path (tag : IndexTag) (tc : List TagCatalogRow)
    (files : FileStatsMap) (readFile hash : String → String) (p : String)
    (hnd : (files.map Prod.fst).Nodup)
    (hone : (getSavedItemsForTag tc tag).Pairwise
      (fun a b => a.path ≠ b.path)) :
    (addListOf tag tc files readFile hash).filter
        (fun it => decide (it.path = p)) =
      match (getSavedItemsForTag tc tag).find?
          (fun r => decide (r.path = p)) with
      | none =>
        match assocGet (ffOf files) p with
        | none => []
        | some _ => [⟨p, hash (readFile p)⟩]
      | some r => rowUpdateNew (ffOf files) readFile hash r :=
  addList_filter_path (getSavedItemsForTag tc tag) (ffOf files)
    readFile hash p
    (hnd.sublist ((List.filter_sublist files).map Prod.fst)) hone

theorem removeListOf_filter_path (tag : IndexTag) (tc : List TagCatalogRow)
    (files : FileStatsMap) (readFile hash : String → String) (p : String)
    (hone : (getSavedItemsForTag tc tag).Pairwise
      (fun a b => a.path ≠ b.path)) :
    (removeListOf tag tc files readFile hash).filter
        (fun it => decide (it.path = p)) =
      match (getSavedItemsForTag tc tag).find?
          (fun r => decide (r.path = p)) with
      | none => []
      | some r => rowRemove (ffOf files) r ++
          rowUpdateOld (ffOf files) readFile hash r :=
  removeList_filter_path (getSavedItemsForTag tc tag) (ffOf files)
    readFile hash p hone

theorem touchListOf_filter_path (tag : IndexTag) (tc : List TagCatalogRow)
    (files : FileStatsMap) (readFile hash : String → String) (p : String)
    (hone : (getSavedItemsForTag tc tag).Pairwise
      (fun a b => a.path ≠ b.path)) :
    (touchListOf tag tc files readFile hash).filter
        (fun it => decide (it.path = p)) =
      match (getSavedItemsForTag tc tag).find?
          (fun r => decide (r.path = p)) with
      | none => []
      | some r => rowTouch (ffOf files) readFile hash r :=
  touchList_filter_path (getSavedItemsForTag tc tag) (ffOf files)
    readFile hash p hone

theorem filter_one {α : Type} (pred : α → Bool) (a : α) :
    [a].filter pred = if pred a = true then [a] else [] := by
  rw [List.filter_cons]
  cases h : pred a
  · simp
  · simp

theorem filter_swap {α : Type} (pr q : α → Bool) (l : List α) :
    (l.filter pr).filter q = (l.filter q).filter pr := by
  rw [List.filter_filter, List.filter_filter]
  apply List.filter_congr
  intro a _
  rw [Bool.and_comm]

theorem stage4_rows (tag : IndexTag) (st : DbState) (files : FileStatsMap)
    (readFile hash : String → String) (ts1 : Nat) (p : String)
    (hone : (getSavedItemsForTag st.tagCatalog tag).Pairwise
      (fun a b => a.path ≠ b.path))
    (hkeys : (files.map Prod.fst).Nodup) :
    tagPathRows (stage4Catalog tag st files readFile hash ts1) tag p =
      expected4 tag (ffOf files) readFile hash ts1 p
        (tagPathRows st.tagCatalog tag p) := by
  have hpr := planResults_eq tag st files readFile hash hone
  have hC : (planResults tag st files readFile hash).compute =
      (addListOf tag st.tagCatalog files readFile hash).filter
        (fun i => decide (¬ (getTagsFromGlobalCache st.globalCache
          i.cacheKey tag.artifactId).length > 0)) := by rw [hpr]
  have hD : (planResults tag st files readFile hash).del =
      (removeListOf tag st.tagCatalog files readFile hash).filter
        (fun i => decide (¬ (getTagsFromGlobalCache st.globalCache
          i.cacheKey tag.artifactId).length > 1)) := by rw [hpr]
  have hA2 : (planResults tag st files readFile hash).addTag =
      (addListOf tag st.tagCatalog files readFile hash).filter
        (fun i => decide ((getTagsFromGlobalCache st.globalCache
          i.cacheKey tag.artifactId).length > 0)) := by rw [hpr]
  have hR2 : (planResults tag st files readFile hash).removeTag =
      (removeListOf tag st.tagCatalog files readFile hash).filter
        (fun i => decide ((getTagsFromGlobalCache st.globalCache
          i.cacheKey tag.artifactId).length > 1)) := by rw [hpr]
  unfold stage4Catalog
  rw [markComplete_addTag_eq_compute, markComplete_removeTag_eq_del]
  rw [tagPathRows_markComplete_del, tagPathRows_markComplete_del,
    tagPathRows_markComplete_compute, tagPathRows_markComplete_compute]
  rw [hC, hD, hA2, hR2]
  rw [filter_swap _ (fun it => decide (it.path = p))
      (addListOf tag st.tagCatalog files readFile hash),
    filter_swap _ (fun it => decide (it.path = p))
      (addListOf tag st.tagCatalog files readFile hash),
    filter_swap _ (fun it => decide (it.path = p))
      (removeListOf tag st.tagCatalog files readFile hash),
    filter_swap _ (fun it => decide (it.path = p))
      (removeListOf tag st.tagCatalog files readFile hash)]
  rcases saved_filter_cases (getSavedItemsForTag st.tagCatalog tag) hone p
    with hnil | ⟨r, hrS, hrp, hsing⟩
  · have hfind : (getSavedItemsForTag st.tagCatalog tag).find?
        (fun x => decide (x.path = p)) = none := by
      rw [find?_eq_head?_filter, hnil]
      rfl
    have hrows0 : tagPathRows st.tagCatalog tag p = [] := by
      rw [tagPathRows_eq_saved_filter]
      exact hnil
    have hRemp : (removeListOf tag st.tagCatalog files readFile hash).filter
        (fun it => decide (it.path = p)) = [] := by
      rw [removeListOf_filter_path tag st.tagCatalog files readFile hash p
        hone, hfind]
    rcases ho : assocGet (ffOf files) p with _ | stat
    · have hAddp : (addListOf tag st.tagCatalog files readFile hash).filter
          (fun it => decide (it.path = p)) = [] := by
        rw [addListOf_filter_path tag st.tagCatalog files readFile hash p
          hkeys hone, hfind, ho]
      have hexp : expected4 tag (ffOf files) readFile hash ts1 p [] = [] := by
        unfold expected4
        rw [ho]
      rw [hAddp, hRemp, hrows0, hexp]
      rfl
    · have hAddp : (addListOf tag st.tagCatalog files readFile hash).filter
          (fun it => decide (it.path = p)) =
          [(⟨p, hash (readFile p)⟩ : PathAndCacheKey)] := by
        rw [addListOf_filter_path tag st.tagCatalog files readFile hash p
          hkeys hone, hfind, ho]
      have hexp : expected4 tag (ffOf files) readFile hash ts1 p [] =
          [⟨tag.directory, tag.branch, tag.artifactId, p,
            hash (readFile p), ts1⟩] := by
        unfold expected4
        rw [ho]
      rw [hAddp, hRemp, hrows0, hexp]
      by_cases hg : (getTagsFromGlobalCache st.globalCache
          (hash (readFile p)) tag.artifactId).length > 0
      · have hb1 : decide (¬ (getTagsFromGlobalCache st.globalCache
            (hash (readFile p)) tag.artifactId).length > 0) = false :=
          decide_eq_false (not_not_intro hg)
        have hb2 : decide ((getTagsFromGlobalCache st.globalCache
            (hash (readFile p)) tag.artifactId).length > 0) = true :=
          decide_eq_true hg
        simp only [filter_one, List.filter_nil]
        rw [hb1, hb2]
        simp [projReplaceOp]
      · have hb1 : decide (¬ (getTagsFromGlobalCache st.globalCache
            (hash (readFile p)) tag.artifactId).length > 0) = true :=
          decide_eq_true hg
        have hb2 : decide ((getTagsFromGlobalCache st.globalCache
            (hash (readFile p)) tag.artifactId).length > 0) = false :=
          decide_eq_false hg
        simp only [filter_one, List.filter_nil]
        rw [hb1, hb2]
        simp [projReplaceOp]
  · subst hrp
    have hfind : (getSavedItemsForTag st.tagCatalog tag).find?
        (fun x => decide (x.path = r.path)) = some r := by
      rw [find?_eq_head?_filter, hsing]
      rfl
    have hrows0 : tagPathRows st.tagCatalog tag r.path = [r] := by
      rw [tagPathRows_eq_saved_filter]
      exact hsing
    have hAddp : (addListOf tag st.tagCatalog files readFile hash).filter
        (fun it => decide (it.path = r.path)) =
        rowUpdateNew (ffOf files) readFile hash r := by
      rw [addListOf_filter_path tag st.tagCatalog files readFile hash r.path
        hkeys hone, hfind]
    have hRemp : (removeListOf tag st.tagCatalog files readFile hash).filter
        (fun it => decide (it.path = r.path)) =
        rowRemove (ffOf files) r ++
          rowUpdateOld (ffOf files) readFile hash r := by
      rw [removeListOf_filter_path tag st.tagCatalog files readFile hash
        r.path hone, hfind]
    rcases ho : assocGet (ffOf files) r.path with _ | stat
    · have hAN : rowUpdateNew (ffOf files) readFile hash r = [] :=
        rowUpdateNew_none _ _ _ _ ho
      have hRN : rowRemove (ffOf files) r = [⟨r.path, r.cacheKey⟩] :=
        rowRemove_none _ _ ho
      have hON : rowUpdateOld (ffOf files) readFile hash r = [] :=
        rowUpdateOld_none _ _ _ _ ho
      have hexp : expected4 tag (ffOf files) readFile hash ts1 r.path [r] =
          [] := by
        unfold expected4
        rw [ho]
      rw [hAddp, hRemp, hrows0, hexp, hAN, hRN, hON]
      by_cases hg : (getTagsFromGlobalCache st.globalCache r.cacheKey
          tag.artifactId).length > 1
      · have hb1 : decide ((getTagsFromGlobalCache st.globalCache
            r.cacheKey tag.artifactId).length > 1) = true :=
          decide_eq_true hg
        have hb2 : decide (¬ (getTagsFromGlobalCache st.globalCache
            r.cacheKey tag.artifactId).length > 1) = false :=
          decide_eq_false (not_not_intro hg)
        simp only [List.append_nil, filter_one, List.filter_nil]
        rw [hb1, hb2]
        simp [projDeleteOp]
      · have hb1 : decide ((getTagsFromGlobalCache st.globalCache
            r.cacheKey tag.artifactId).length > 1) = false :=
          decide_eq_false hg
        have hb2 : decide (¬ (getTagsFromGlobalCache st.globalCache
            r.cacheKey tag.artifactId).length > 1) = true :=
          decide_eq_true hg
        simp only [List.append_nil, filter_one, List.filter_nil]
        rw [hb1, hb2]
        simp [projDeleteOp]
    · by_cases hlt : r.lastUpdated < stat.lastModified
      · by_cases hkey : r.cacheKey ≠ hash (readFile r.path)
        · have hAN : rowUpdateNew (ffOf files) readFile hash r =
              [⟨r.path, hash (readFile r.path)⟩] := by
            rw [rowUpdateNew_some _ _ _ _ _ ho, if_pos hlt, if_pos hkey]
          have hRN : rowRemove (ffOf files) r = [] :=
            rowRemove_some _ _ _ ho
          have hON : rowUpdateOld (ffOf files) readFile hash r =
              [⟨r.path, r.cacheKey⟩] := by
            rw [rowUpdateOld_some _ _ _ _ _ ho, if_pos hlt, if_pos hkey]
          have hexp : expected4 tag (ffOf files) readFile hash ts1 r.path
              [r] = [⟨tag.directory, tag.branch, tag.artifactId, r.path,
                hash (readFile r.path), ts1⟩] := by
            unfold expected4
            rw [ho]
            simp [hlt, hkey]
          have hkey2 : hash (readFile r.path) ≠ r.cacheKey := Ne.symm hkey
          rw [hAddp, hRemp, hrows0, hexp, hAN, hRN, hON]
          by_cases hgA : (getTagsFromGlobalCache st.globalCache
              (hash (readFile r.path)) tag.artifactId).length > 0
          · have hbA1 : decide (¬ (getTagsFromGlobalCache st.globalCache
                (hash (readFile r.path)) tag.artifactId).length > 0) =
                false := decide_eq_false (not_not_intro hgA)
            have hbA2 : decide ((getTagsFromGlobalCache st.globalCache
                (hash (readFile r.path)) tag.artifactId).length > 0) =
                true := decide_eq_true hgA
            by_cases hgR : (getTagsFromGlobalCache st.globalCache
                r.cacheKey tag.artifactId).length > 1
            · have hbR1 : decide ((getTagsFromGlobalCache st.globalCache
                  r.cacheKey tag.artifactId).length > 1) = true :=
                decide_eq_true hgR
              have hbR2 : decide (¬ (getTagsFromGlobalCache st.globalCache
                  r.cacheKey tag.artifactId).length > 1) = false :=
                decide_eq_false (not_not_intro hgR)
              simp only [List.nil_append, filter_one, List.filter_nil]
              rw [hbA1, hbA2, hbR1, hbR2]
              simp [projReplaceOp, projDeleteOp, hkey, hkey2]
            · have hbR1 : decide ((getTagsFromGlobalCache st.globalCache
                  r.cacheKey tag.artifactId).length > 1) = false :=
                decide_eq_false hgR
              have hbR2 : decide (¬ (getTagsFromGlobalCache st.globalCache
                  r.cacheKey tag.artifactId).length > 1) = true :=
                decide_eq_true hgR
              simp only [List.nil_append, filter_one, List.filter_nil]
              rw [hbA1, hbA2, hbR1, hbR2]
              simp [projReplaceOp, projDeleteOp, hkey, hkey2]
          · have hbA1 : decide (¬ (getTagsFromGlobalCache st.globalCache
                (hash (readFile r.path)) tag.artifactId).length > 0) =
                true := decide_eq_true hgA
            have hbA2 : decide ((getTagsFromGlobalCache st.globalCache
                (hash (readFile r.path)) tag.artifactId).length > 0) =
                false := decide_eq_false hgA
            by_cases hgR : (getTagsFromGlobalCache st.globalCache
                r.cacheKey tag.artifactId).length > 1
            · have hbR1 : decide ((getTagsFromGlobalCache st.globalCache
                  r.cacheKey tag.artifactId).length > 1) = true :=
                decide_eq_true hgR
              have hbR2 : decide (¬ (getTagsFromGlobalCache st.globalCache
                  r.cacheKey tag.artifactId).length > 1) = false :=
                decide_eq_false (not_not_intro hgR)
              simp only [List.nil_append, filter_one, List.filter_nil]
              rw [hbA1, hbA2, hbR1, hbR2]
              simp [projReplaceOp, projDeleteOp, hkey, hkey2]
            · have hbR1 : decide ((getTagsFromGlobalCache st.globalCache
                  r.cacheKey tag.artifactId).length > 1) = false :=
                decide_eq_false hgR
              have hbR2 : decide (¬ (getTagsFromGlobalCache st.globalCache
                  r.cacheKey tag.artifactId).length > 1) = true :=
                decide_eq_true hgR
              simp only [List.nil_append, filter_one, List.filter_nil]
              rw [hbA1, hbA2, hbR1, hbR2]
              simp [projReplaceOp, projDeleteOp, hkey, hkey2]
        · have hAN : rowUpdateNew (ffOf files) readFile hash r = [] := by
            rw [rowUpdateNew_some _ _ _ _ _ ho, if_pos hlt, if_neg hkey]
          have hRN : rowRemove (ffOf files) r = [] :=
            rowRemove_some _ _ _ ho
          have hON : rowUpdateOld (ffOf files) readFile hash r = [] := by
            rw [rowUpdateOld_some _ _ _ _ _ ho, if_pos hlt, if_neg hkey]
          have hexp : expected4 tag (ffOf files) readFile hash ts1 r.path
              [r] = [r] := by
            unfold expected4
            rw [ho]
            simp [hlt, hkey]
          rw [hAddp, hRemp, hrows0, hexp, hAN, hRN, hON]
          rfl
      · have hAN : rowUpdateNew (ffOf files) readFile hash r = [] := by
          rw [rowUpdateNew_some _ _ _ _ _ ho, if_neg hlt]
        have hRN : rowRemove (ffOf files) r = [] :=
          rowRemove_some _ _ _ ho
        have hON : rowUpdateOld (ffOf files) readFile hash r = [] := by
          rw [rowUpdateOld_some _ _ _ _ _ ho, if_neg hlt]
        have hexp : expected4 tag (ffOf files) readFile hash ts1 r.path
            [r] = [r] := by
          unfold expected4
          rw [ho]
          simp [hlt]
        rw [hAddp, hRemp, hrows0, hexp, hAN, hRN, hON]
        rfl

/-- The expected `(tag, path)` cell after all five plan stages: as
`expected4`, except that a stale row with unchanged content has its
`lastUpdated` bumped by the `updateLastUpdated` stage. -/
def expectedFinal (tag : IndexTag) (ff : FileStatsMap)
    (readFile hash : String → String) (ts1 : Nat) (p : String)
    (rows0 : List TagCatalogRow) : List TagCatalogRow :=
  match assocGet ff p, rows0 with
  | none, _ => []
  | some _, [] =>
    [⟨tag.directory, tag.branch, tag.artifactId, p, hash (readFile p), ts1⟩]
  | some stat, r :: _ =>
    if r.lastUpdated < stat.lastModified then
      if r.cacheKey ≠ hash (readFile p) then
        [⟨tag.directory, tag.branch, tag.artifactId, p,
          hash (readFile p), ts1⟩]
      else [{ r with lastUpdated := ts1 }]
    else [r]

theorem final_rows (tag : IndexTag) (st : DbState) (files : FileStatsMap)
    (readFile hash : String → String) (ts1 : Nat) (p : String)
    (htc : tcUnique st.tagCatalog)
    (hone : (getSavedItemsForTag st.tagCatalog tag).Pairwise
      (fun a b => a.path ≠ b.path))
    (hkeys : (files.map Prod.fst).Nodup) :
    tagPathRows (runPlanCompletion tag ts1 st
        (planResults tag st files readFile hash)
        (getComputeDeleteAddRemove tag st files readFile hash).2).tagCatalog
      tag p =
      expectedFinal tag (ffOf files) readFile hash ts1 p
        (tagPathRows st.tagCatalog tag p) := by
  rw [runPlanCompletion_tagCatalog]
  rw [planTouch_eq tag st files readFile hash hone]
  have hu4 : tcUnique (stage4Catalog tag st files readFile hash ts1) := by
    unfold stage4Catalog
    exact tcUnique_markCompleteTagCatalog _ _ _ _ _
      (tcUnique_markCompleteTagCatalog _ _ _ _ _
        (tcUnique_markCompleteTagCatalog _ _ _ _ _
          (tcUnique_markCompleteTagCatalog _ _ _ _ _ htc)))
  have hsingle : ∀ it ∈ touchListOf tag st.tagCatalog files readFile hash,
      ∀ row ∈ tagPathRows (stage4Catalog tag st files readFile hash ts1)
        tag it.path, row.cacheKey = it.cacheKey := by
    intro it hit row hrow
    rw [touchListOf, List.mem_flatMap] at hit
    obtain ⟨r, hrS, hitr⟩ := hit
    obtain ⟨hiteq, stat, hstat, hlt, hkeq⟩ :=
      rowTouch_mem_spec (ffOf files) readFile hash r it hitr
    have hrows0 : tagPathRows st.tagCatalog tag r.path = [r] := by
      rw [tagPathRows_eq_saved_filter]
      exact filter_path_eq_singleton_of_pairwise _ hone r hrS
    have hcell := stage4_rows tag st files readFile hash ts1 r.path hone hkeys
    rw [hrows0] at hcell
    have hcell2 : expected4 tag (ffOf files) readFile hash ts1 r.path [r] =
        [r] := by
      unfold expected4
      rw [hstat]
      simp [hlt, hkeq]
    have hp : it.path = r.path := by rw [hiteq]
    have hk : it.cacheKey = r.cacheKey := by rw [hiteq]
    rw [hp, hcell, hcell2, List.mem_singleton] at hrow
    rw [hrow, hk]
  have hnd : ((touchListOf tag st.tagCatalog files readFile hash).map
      PathAndCacheKey.path).Nodup := by
    unfold touchListOf
    exact flatMap_paths_nodup _ _
      (fun r it h => rowTouch_path (ffOf files) readFile hash r it h)
      (fun r => rowTouch_length (ffOf files) readFile hash r) hone
  rw [tagPathRows_markComplete_touch tag ts1
    (touchListOf tag st.tagCatalog files readFile hash)
    (stage4Catalog tag st files readFile hash ts1) p hu4 hsingle hnd]
  rcases saved_filter_cases (getSavedItemsForTag st.tagCatalog tag) hone p
    with hnil | ⟨r, hrS, hrp, hsing⟩
  · have hfind : (getSavedItemsForTag st.tagCatalog tag).find?
        (fun x => decide (x.path = p)) = none := by
      rw [find?_eq_head?_filter, hnil]
      rfl
    have hrows0 : tagPathRows st.tagCatalog tag p = [] := by
      rw [tagPathRows_eq_saved_filter]
      exact hnil
    have hfT : (touchListOf tag st.tagCatalog files readFile hash).find?
        (fun it => decide (it.path = p)) = none := by
      rw [find?_eq_head?_filter,
        touchListOf_filter_path tag st.tagCatalog files readFile hash p hone,
        hfind]
      rfl
    rw [hfT, hrows0]
    show tagPathRows (stage4Catalog tag st files readFile hash ts1) tag p =
      expectedFinal tag (ffOf files) readFile hash ts1 p []
    have hcell := stage4_rows tag st files readFile hash ts1 p hone hkeys
    rw [hrows0] at hcell
    rw [hcell]
    unfold expected4 expectedFinal
    rcases ho : assocGet (ffOf files) p with _ | stat
    · rfl
    · rfl
  · subst hrp
    have hfind : (getSavedItemsForTag st.tagCatalog tag).find?
        (fun x => decide (x.path = r.path)) = some r := by
      rw [find?_eq_head?_filter, hsing]
      rfl
    have hrows0 : tagPathRows st.tagCatalog tag r.path = [r] := by
      rw [tagPathRows_eq_saved_filter]
      exact hsing
    have hcell := stage4_rows tag st files readFile hash ts1 r.path hone hkeys
    rw [hrows0] at hcell
    rcases ho : assocGet (ffOf files) r.path with _ | stat
    · have hT : rowTouch (ffOf files) readFile hash r = [] :=
        rowTouch_none _ _ _ _ ho
      have hfT : (touchListOf tag st.tagCatalog files readFile
          hash).find? (fun it => decide (it.path = r.path)) = none := by
        rw [find?_eq_head?_filter, touchListOf_filter_path tag st.tagCatalog
          files readFile hash r.path hone, hfind]
        show (rowTouch (ffOf files) readFile hash r).head? = none
        rw [hT]
        rfl
      rw [hfT, hrows0]
      show tagPathRows (stage4Catalog tag st files readFile hash ts1) tag
          r.path = expectedFinal tag (ffOf files) readFile hash ts1 r.path [r]
      rw [hcell]
      have h4 : expected4 tag (ffOf files) readFile hash ts1 r.path [r] =
          [] := by
        unfold expected4
        rw [ho]
      have hF : expectedFinal tag (ffOf files) readFile hash ts1 r.path [r] =
          [] := by
        unfold expectedFinal
        rw [ho]
      rw [h4, hF]
    · by_cases hlt : r.lastUpdated < stat.lastModified
      · by_cases hkey : r.cacheKey ≠ hash (readFile r.path)
        · have hT : rowTouch (ffOf files) readFile hash r = [] := by
            rw [rowTouch_some _ _ _ _ _ ho, if_pos hlt, if_pos hkey]
          have hfT : (touchListOf tag st.tagCatalog files readFile
              hash).find? (fun it => decide (it.path = r.path)) = none := by
            rw [find?_eq_head?_filter, touchListOf_filter_path tag
              st.tagCatalog files readFile hash r.path hone, hfind]
            show (rowTouch (ffOf files) readFile hash r).head? = none
            rw [hT]
            rfl
          rw [hfT, hrows0]
          show tagPathRows (stage4Catalog tag st files readFile hash ts1)
              tag r.path =
            expectedFinal tag (ffOf files) readFile hash ts1 r.path [r]
          rw [hcell]
          have h4 : expected4 tag (ffOf files) readFile hash ts1 r.path [r] =
              [⟨tag.directory, tag.branch, tag.artifactId, r.path,
                hash (readFile r.path), ts1⟩] := by
            unfold expected4
            rw [ho]
            simp [hlt, hkey]
          have hF : expectedFinal tag (ffOf files) readFile hash ts1 r.path
              [r] = [⟨tag.directory, tag.branch, tag.artifactId, r.path,
                hash (readFile r.path), ts1⟩] := by
            unfold expectedFinal
            rw [ho]
            simp [hlt, hkey]
          rw [h4, hF]
        · have hT : rowTouch (ffOf files) readFile hash r =
              [⟨r.path, r.cacheKey⟩] := by
            rw [rowTouch_some _ _ _ _ _ ho, if_pos hlt, if_neg hkey]
          have hfT : (touchListOf tag st.tagCatalog files readFile
              hash).find? (fun it => decide (it.path = r.path)) =
              some ⟨r.path, r.cacheKey⟩ := by
            rw [find?_eq_head?_filter, touchListOf_filter_path tag
              st.tagCatalog files readFile hash r.path hone, hfind]
            show (rowTouch (ffOf files) readFile hash r).head? =
              some ⟨r.path, r.cacheKey⟩
            rw [hT]
            rfl
          rw [hfT, hrows0]
          show (tagPathRows (stage4Catalog tag st files readFile hash ts1)
              tag r.path).map
              (fun row => { row with cacheKey := r.cacheKey, lastUpdated := ts1 }) =
            expectedFinal tag (ffOf files) readFile hash ts1 r.path [r]
          rw [hcell]
          have h4 : expected4 tag (ffOf files) readFile hash ts1 r.path [r] =
              [r] := by
            unfold expected4
            rw [ho]
            simp [hlt, hkey]
          rw [h4]
          have hF : expectedFinal tag (ffOf files) readFile hash ts1 r.path
              [r] = [{ r with lastUpdated := ts1 }] := by
            unfold expectedFinal
            rw [ho]
            simp [hlt, hkey]
          rw [hF]
          rfl
      · have hT : rowTouch (ffOf files) readFile hash r = [] := by
          rw [rowTouch_some _ _ _ _ _ ho, if_neg hlt]
        have hfT : (touchListOf tag st.tagCatalog files readFile
            hash).find? (fun it => decide (it.path = r.path)) = none := by
          rw [find?_eq_head?_filter, touchListOf_filter_path tag
            st.tagCatalog files readFile hash r.path hone, hfind]
          show (rowTouch (ffOf files) readFile hash r).head? = none
          rw [hT]
          rfl
        rw [hfT, hrows0]
        show tagPathRows (stage4Catalog tag st files readFile hash ts1) tag
            r.path =
          expectedFinal tag (ffOf files) readFile hash ts1 r.path [r]
        rw [hcell]
        have h4 : expected4 tag (ffOf files) readFile hash ts1 r.path [r] =
            [r] := by
          unfold expected4
          rw [ho]
          simp [hlt]
        have hF : expectedFinal tag (ffOf files) readFile hash ts1 r.path
            [r] = [r] := by
          unfold expectedFinal
          rw [ho]
          simp [hlt]
        rw [h4, hF]

theorem expectedFinal_length (tag : IndexTag) (ff : FileStatsMap)
    (readFile hash : String → String) (ts1 : Nat) (p : String)
    (rows0 : List TagCatalogRow) :
    (expectedFinal tag ff readFile hash ts1 p rows0).length ≤ 1 := by
  unfold expectedFinal
  rcases assocGet ff p with _ | stat
  · cases rows0 <;> simp
  · cases rows0 with
    | nil => simp
    | cons r t =>
      by_cases hlt : r.lastUpdated < stat.lastModified
      · by_cases hk : r.cacheKey ≠ hash (readFile p)
        · simp [hlt, hk]
        · simp [hlt, hk]
      · simp [hlt]

theorem expectedFinal_ne_nil (tag : IndexTag) (ff : FileStatsMap)
    (readFile hash : String → String) (ts1 : Nat) (p : String)
    (rows0 : List TagCatalogRow) (stat : FileStats)
    (h : assocGet ff p = some stat) :
    expectedFinal tag ff readFile hash ts1 p rows0 ≠ [] := by
  unfold expectedFinal
  rw [h]
  cases rows0 with
  | nil => simp
  | cons r t =>
    by_cases hlt : r.lastUpdated < stat.lastModified
    · by_cases hk : r.cacheKey ≠ hash (readFile p)
      · simp [hlt, hk]
      · simp [hlt, hk]
    · simp [hlt]

theorem expectedFinal_mem_spec (tag : IndexTag) (ff : FileStatsMap)
    (readFile hash : String → String) (ts1 : Nat) (p : String)
    (rows0 : List TagCatalogRow) (r1 : TagCatalogRow)
    (hrows : ∀ x ∈ rows0, x.path = p)
    (h : r1 ∈ expectedFinal tag ff readFile hash ts1 p rows0) :
    r1.path = p ∧ ∃ stat, assocGet ff p = some stat ∧
      (r1.lastUpdated = ts1 ∨ ¬ r1.lastUpdated < stat.lastModified) := by
  unfold expectedFinal at h
  split at h
  · cases h
  · rename_i stat heq
    rw [List.mem_singleton] at h
    subst h
    exact ⟨rfl, stat, heq, Or.inl rfl⟩
  · rename_i stat r t heq
    split at h
    · rename_i hlt
      split at h
      · rename_i hk
        rw [List.mem_singleton] at h
        subst h
        exact ⟨rfl, stat, heq, Or.inl rfl⟩
      · rename_i hk
        rw [List.mem_singleton] at h
        subst h
        exact ⟨hrows r (by simp), stat, heq, Or.inl rfl⟩
    · rename_i hlt
      rw [List.mem_singleton] at h
      subst h
      exact ⟨hrows r1 (by simp), stat, heq, Or.inr hlt⟩

theorem flatMap_eq_nil_of_forall {α β : Type} (l : List α) (f : α → List β)
    (h : ∀ x ∈ l, f x = []) : l.flatMap f = [] := by
  induction l with
  | nil => rfl
  | cons a l ih =>
    rw [List.flatMap_cons, h a (by simp), List.nil_append]
    exact ih (fun x hx => h x (by simp [hx]))

/-- Claim C2 (amended): completing every item of the plan produced by
`getComputeDeleteAddRemove` — the four classification stages in the order
the indexer runs them, then `markComplete(lastUpdated, UpdateLastUpdated)`
— and re-running the planner over the same unchanged file set yields the
all-empty plan, provided the catalog's `(dir, branch, artifact, path, key)`
tuples are unique, the tag's saved paths are pairwise distinct, the file
map's keys are distinct, and no file's mtime exceeds the completion
timestamp.  (Without the distinct-paths proviso the literal claim fails:
see the counterexample, where a path holding two catalog versions makes
the second plan non-empty.) -/
theorem refresh_completion_idempotent (tag : IndexTag) (st : DbState)
    (files : FileStatsMap) (readFile hash : String → String) (ts1 : Nat)
    (htc : tcUnique st.tagCatalog)
    (hone : (getSavedItemsForTag st.tagCatalog tag).Pairwise
      (fun a b => a.path ≠ b.path))
    (hkeys : (files.map Prod.fst).Nodup)
    (htime : ∀ q ∈ files, q.2.lastModified ≤ ts1) :
    getComputeDeleteAddRemove tag
      (runPlanCompletion tag ts1 st (planResults tag st files readFile hash)
        (getComputeDeleteAddRemove tag st files readFile hash).2)
      files readFile hash = (⟨[], [], [], []⟩, []) := by
  have hff : ((ffOf files).map Prod.fst).Nodup :=
    hkeys.sublist ((List.filter_sublist files).map Prod.fst)
  have hcell : ∀ p, tagPathRows (runPlanCompletion tag ts1 st
      (planResults tag st files readFile hash)
      (getComputeDeleteAddRemove tag st files readFile hash).2).tagCatalog
        tag p =
      expectedFinal tag (ffOf files) readFile hash ts1 p
        (tagPathRows st.tagCatalog tag p) :=
    fun p => final_rows tag st files readFile hash ts1 p htc hone hkeys
  have hone1 : (getSavedItemsForTag (runPlanCompletion tag ts1 st
      (planResults tag st files readFile hash)
      (getComputeDeleteAddRemove tag st files readFile hash).2).tagCatalog
      tag).Pairwise (fun a b => a.path ≠ b.path) := by
    apply pairwise_path_of_filter_le_one
    intro p
    rw [← tagPathRows_eq_saved_filter, hcell p]
    exact expectedFinal_length tag (ffOf files) readFile hash ts1 p _
  have hsaved_spec : ∀ r1 ∈ getSavedItemsForTag (runPlanCompletion tag ts1
      st (planResults tag st files readFile hash)
      (getComputeDeleteAddRemove tag st files readFile hash).2).tagCatalog
      tag,
      ∃ stat, assocGet (ffOf files) r1.path = some stat ∧
        (r1.lastUpdated = ts1 ∨ ¬ r1.lastUpdated < stat.lastModified) := by
    intro r1 hr1
    have hmem : r1 ∈ tagPathRows (runPlanCompletion tag ts1 st
        (planResults tag st files readFile hash)
        (getComputeDeleteAddRemove tag st files readFile hash).2).tagCatalog
        tag r1.path := by
      rw [tagPathRows_eq_saved_filter, List.mem_filter]
      exact ⟨hr1, by simp⟩
    rw [hcell r1.path] at hmem
    have hrows : ∀ x ∈ tagPathRows st.tagCatalog tag r1.path,
        x.path = r1.path := by
      intro x hx
      unfold tagPathRows at hx
      rw [List.mem_filter] at hx
      have h2 := hx.2
      simp only [decide_eq_true_eq] at h2
      exact h2.2.2.2
    exact (expectedFinal_mem_spec tag (ffOf files) readFile hash ts1 r1.path
      _ r1 hrows hmem).2
  have hstale : ∀ r1 ∈ getSavedItemsForTag (runPlanCompletion tag ts1 st
      (planResults tag st files readFile hash)
      (getComputeDeleteAddRemove tag st files readFile hash).2).tagCatalog
      tag, ∀ stat, assocGet (ffOf files) r1.path = some stat →
        ¬ r1.lastUpdated < stat.lastModified := by
    intro r1 hr1 stat hstat
    obtain ⟨stat2, hstat2, hca⟩ := hsaved_spec r1 hr1
    rw [hstat] at hstat2
    cases hstat2
    rcases hca with hts | hn
    · obtain ⟨q, hqff, hq1, hq2⟩ :=
        assocGet_some_mem (ffOf files) r1.path stat hstat
      have hqfiles : q ∈ files := List.mem_of_mem_filter hqff
      have hle := htime q hqfiles
      rw [hq2] at hle
      rw [hts]
      omega
    · exact hn
  have hAe : addListOf tag (runPlanCompletion tag ts1 st
      (planResults tag st files readFile hash)
      (getComputeDeleteAddRemove tag st files readFile hash).2).tagCatalog
      files readFile hash = [] := by
    unfold addListOf
    rw [List.append_eq_nil]
    constructor
    · rw [List.map_eq_nil_iff, List.filter_eq_nil_iff]
      intro q hq
      intro hd
      simp only [decide_eq_true_eq] at hd
      apply hd
      have hget : assocGet (ffOf files) q.1 = some q.2 :=
        mem_assocGet_of_nodup (ffOf files) hff q hq
      have hne := expectedFinal_ne_nil tag (ffOf files) readFile hash ts1
        q.1 (tagPathRows st.tagCatalog tag q.1) q.2 hget
      rw [← hcell q.1] at hne
      obtain ⟨r1, hr1⟩ := List.exists_mem_of_ne_nil _ hne
      rw [tagPathRows_eq_saved_filter, List.mem_filter] at hr1
      rw [List.mem_map]
      refine ⟨r1, hr1.1, ?_⟩
      simpa using hr1.2
    · apply flatMap_eq_nil_of_forall
      intro r1 hr1
      rcases hstat : assocGet (ffOf files) r1.path with _ | stat
      · exact rowUpdateNew_none _ _ _ _ hstat
      · rw [rowUpdateNew_some _ _ _ _ _ hstat,
          if_neg (hstale r1 hr1 stat hstat)]
  have hRe : removeListOf tag (runPlanCompletion tag ts1 st
      (planResults tag st files readFile hash)
      (getComputeDeleteAddRemove tag st files readFile hash).2).tagCatalog
      files readFile hash = [] := by
    unfold removeListOf
    rw [List.append_eq_nil]
    constructor
    · apply flatMap_eq_nil_of_forall
      intro r1 hr1
      obtain ⟨stat, hstat, _⟩ := hsaved_spec r1 hr1
      exact rowRemove_some _ _ _ hstat
    · apply flatMap_eq_nil_of_forall
      intro r1 hr1
      rcases hstat : assocGet (ffOf files) r1.path with _ | stat
      · exact rowUpdateOld_none _ _ _ _ hstat
      · rw [rowUpdateOld_some _ _ _ _ _ hstat,
          if_neg (hstale r1 hr1 stat hstat)]
  have hTe : touchListOf tag (runPlanCompletion tag ts1 st
      (planResults tag st files readFile hash)
      (getComputeDeleteAddRemove tag st files readFile hash).2).tagCatalog
      files readFile hash = [] := by
    unfold touchListOf
    apply flatMap_eq_nil_of_forall
    intro r1 hr1
    rcases hstat : assocGet (ffOf files) r1.path with _ | stat
    · exact rowTouch_none _ _ _ _ hstat
    · rw [rowTouch_some _ _ _ _ _ hstat,
        if_neg (hstale r1 hr1 stat hstat)]
  set st1 := runPlanCompletion tag ts1 st
    (planResults tag st files readFile hash)
    (getComputeDeleteAddRemove tag st files readFile hash).2 with hst1
  simp only [getComputeDeleteAddRemove]
  rw [getAddRemoveForTag_eq2 tag st1.tagCatalog files readFile hash hone1,
    hAe, hRe, hTe]
  rfl

def idemTag : IndexTag := ⟨"d", "main", "chunks"⟩

def idemSt : DbState := ⟨[⟨"d", "main", "chunks", "p", "h0", 5⟩], []⟩

def idemFiles : FileStatsMap := [("p", ⟨7, 3⟩)]

def idemRead : String → String := fun _ => "body"

def idemHash : String → String := fun s => s

theorem refresh_completion_idempotent_witness :
    tcUnique idemSt.tagCatalog ∧
    (getSavedItemsForTag idemSt.tagCatalog idemTag).Pairwise
      (fun a b => a.path ≠ b.path) ∧
    (idemFiles.map Prod.fst).Nodup ∧
    (∀ q ∈ idemFiles, q.2.lastModified ≤ 9) ∧
    getComputeDeleteAddRemove idemTag
      (runPlanCompletion idemTag 9 idemSt
        (planResults idemTag idemSt idemFiles idemRead idemHash)
        (getComputeDeleteAddRemove idemTag idemSt idemFiles idemRead
          idemHash).2) idemFiles idemRead idemHash = (⟨[], [], [], []⟩, []) :=
  ⟨by decide, by decide, by decide, by decide,
    refresh_completion_idempotent idemTag idemSt idemFiles idemRead idemHash
      9 (by decide) (by decide) (by decide) (by decide)⟩

/-- `Math.max(...stopTokens.map(t => t.length))` for a non-empty token
list (all lengths are non-negative, so folding from 0 agrees). -/
def maxStopTokenLength (stopTokens : List (List Char)) : Nat :=
  (stopTokens.map List.length).foldl max 0

/-- `stopTokens.some(t => buffer.startsWith(t))` — the inner `for` loop of
`stopAtStopTokens` (src/unnamed/part_001 lines 1153-1158). -/
def startsWithAnyStop (buffer : List Char)
    (stopTokens : List (List Char)) : Bool :=
  stopTokens.any (fun t => t.isPrefixOf buffer)

/-- JS `String.prototype.replace` with a string pattern: removes only the
first occurrence of `pat` (an empty pattern matches at position 0 and
leaves the string unchanged). -/
def replaceFirst (pat : List Char) : List Char → List Char
  | [] => []
  | c :: rest =>
    if pat.isPrefixOf (c :: rest) then List.drop pat.length (c :: rest)
    else c :: replaceFirst pat rest

/-- The EOF phase of `stopAtStopTokens` (lines 1167-1170):
`stopTokens.forEach(token => buffer = buffer.replace(token, ""))`. -/
def eofStripTokens (stopTokens : List (List Char)) (b : List Char) :
    List Char :=
  stopTokens.foldl (fun b t => replaceFirst t b) b

/-- The `while (buffer.length >= maxStopTokenLength)` loop (lines
1152-1165) applied to one buffer: returns the yielded characters, the
remaining buffer and whether a stop token was found (`return`).  The empty
buffer enters the loop only when `maxLen = 0`, in which case every stop
token is empty and the check fires; the remaining arm is unreachable in
runs coming from `stopAtStopTokens` and returns without yielding. -/
def drainBuffer (stopTokens : List (List Char)) (maxLen : Nat) :
    List Char → List Char × List Char × Bool
  | [] =>
    if maxLen = 0 ∧ startsWithAnyStop [] stopTokens then ([], [], true)
    else ([], [], false)
  | c :: rest =>
    if (c :: rest).length ≥ maxLen then
      if startsWithAnyStop (c :: rest) stopTokens then ([], c :: rest, true)
      else
        match drainBuffer stopTokens maxLen rest with
        | (out, buf, stopped) => (c :: out, buf, stopped)
    else ([], c :: rest, false)

/-- The chunk loop of `stopAtStopTokens` (lines 1149-1165) followed by the
EOF phase (lines 1167-1175). -/
def stopAtStopTokensGo (stopTokens : List (List Char)) (maxLen : Nat) :
    List (List Char) → List Char → List Char
  | [], buffer => eofStripTokens stopTokens buffer
  | chunk :: rest, buffer =>
    match drainBuffer stopTokens maxLen (buffer ++ chunk) with
    | (out, buf, stopped) =>
      if stopped then out
      else out ++ stopAtStopTokensGo stopTokens maxLen rest buf

/-- `stopAtStopTokens` (src/unnamed/part_001 lines 1133-1176) on a chunk
stream, returning the concatenation of all yielded characters. -/
def stopAtStopTokens (chunks : List (List Char))
    (stopTokens : List (List Char)) : List Char :=
  if stopTokens.length = 0 then chunks.flatten
  else stopAtStopTokensGo stopTokens (maxStopTokenLength stopTokens)
    chunks []

/-- The spec's description of the filter, written over the whole flattened
stream: slide a window as long as at least `maxLen` characters remain,
ending the stream when a stop token starts the window; at end of input,
remove each stop token's first occurrence from the tail (in token order)
and flush the rest. -/
def stopSpecGo (stopTokens : List (List Char)) (maxLen : Nat) :
    List Char → List Char
  | [] =>
    if maxLen = 0 ∧ startsWithAnyStop [] stopTokens then []
    else eofStripTokens stopTokens []
  | c :: rest =>
    if (c :: rest).length ≥ maxLen then
      if startsWithAnyStop (c :: rest) stopTokens then []
      else c :: stopSpecGo stopTokens maxLen rest
    else eofStripTokens stopTokens (c :: rest)

/-- The chunking-independent specification of `stopAtStopTokens`. -/
def stopSpec (stopTokens : List (List Char)) (s : List Char) : List Char :=
  if stopTokens.length = 0 then s
  else stopSpecGo stopTokens (maxStopTokenLength stopTokens) s

theorem replaceFirst_nil (pat : List Char) : replaceFirst pat [] = [] := rfl

theorem eofStripTokens_nil (stopTokens : List (List Char)) :
    eofStripTokens stopTokens [] = [] := by
  unfold eofStripTokens
  induction stopTokens with
  | nil => rfl
  | cons t ts ih =>
    rw [List.foldl_cons, replaceFirst_nil]
    exact ih

theorem foldl_max_init_le (l : List Nat) : ∀ a : Nat, a ≤ l.foldl max a := by
  induction l with
  | nil => intro a; exact Nat.le_refl a
  | cons b l ih =>
    intro a
    rw [List.foldl_cons]
    exact Nat.le_trans (Nat.le_max_left a b) (ih (max a b))

theorem mem_le_foldl_max (l : List Nat) : ∀ (a x : Nat), x ∈ l →
    x ≤ l.foldl max a := by
  induction l with
  | nil => intro a x hx; cases hx
  | cons b l ih =>
    intro a x hx
    rw [List.foldl_cons]
    rcases List.mem_cons.mp hx with he | hm
    · subst he
      exact Nat.le_trans (Nat.le_max_right a x) (foldl_max_init_le l _)
    · exact ih _ x hm

theorem length_le_maxStopTokenLength (stopTokens : List (List Char))
    (t : List Char) (ht : t ∈ stopTokens) :
    t.length ≤ maxStopTokenLength stopTokens :=
  mem_le_foldl_max _ 0 t.length (List.mem_map_of_mem List.length ht)

theorem isPrefixOf_append_of_le (t : List Char) : ∀ (s e : List Char),
    t.length ≤ s.length → (t.isPrefixOf (s ++ e)) = t.isPrefixOf s := by
  induction t with
  | nil => intro s e _; simp [List.isPrefixOf]
  | cons a t ih =>
    intro s e hle
    cases s with
    | nil => simp at hle
    | cons b s =>
      show (a == b && t.isPrefixOf (s ++ e)) = (a == b && t.isPrefixOf s)
      rw [ih s e (by simpa [Nat.succ_le_succ_iff] using hle)]

theorem startsWithAnyStop_append (stopTokens : List (List Char))
    (maxLen : Nat) (hle : ∀ t ∈ stopTokens, t.length ≤ maxLen)
    (s e : List Char) (hs : maxLen ≤ s.length) :
    startsWithAnyStop (s ++ e) stopTokens =
      startsWithAnyStop s stopTokens := by
  unfold startsWithAnyStop
  induction stopTokens with
  | nil => rfl
  | cons t ts ih =>
    rw [List.any_cons, List.any_cons]
    rw [isPrefixOf_append_of_le t s e
      (Nat.le_trans (hle t (by simp)) hs)]
    rw [ih (fun x hx => hle x (by simp [hx]))]

theorem startsWithAnyStop_of_empty (stopTokens : List (List Char))
    (h : startsWithAnyStop [] stopTokens = true) (s : List Char) :
    startsWithAnyStop s stopTokens = true := by
  unfold startsWithAnyStop at h ⊢
  rw [List.any_eq_true] at h ⊢
  obtain ⟨t, ht, hpre⟩ := h
  have ht0 : t = [] := by
    cases t with
    | nil => rfl
    | cons a t => simp [List.isPrefixOf] at hpre
  refine ⟨t, ht, ?_⟩
  rw [ht0]
  simp [List.isPrefixOf]


theorem drainBuffer_nil (stopTokens : List (List Char)) (maxLen : Nat) :
    drainBuffer stopTokens maxLen [] =
      if maxLen = 0 ∧ startsWithAnyStop [] stopTokens then ([], [], true)
      else ([], [], false) := rfl

theorem drainBuffer_cons (stopTokens : List (List Char)) (maxLen : Nat)
    (x : Char) (rest : List Char) :
    drainBuffer stopTokens maxLen (x :: rest) =
      if (x :: rest).length ≥ maxLen then
        if startsWithAnyStop (x :: rest) stopTokens then
          ([], x :: rest, true)
        else
          match drainBuffer stopTokens maxLen rest with
          | (out, buf, stopped) => (x :: out, buf, stopped)
      else ([], x :: rest, false) := rfl

theorem drainBuffer_residue (stopTokens : List (List Char)) (maxLen : Nat) :
    ∀ (b out buf : List Char),
    drainBuffer stopTokens maxLen b = (out, buf, false) →
    drainBuffer stopTokens maxLen buf = ([], buf, false) := by
  intro b
  induction b with
  | nil =>
    intro out buf h
    rw [drainBuffer_nil] at h
    split at h
    · simp at h
    · rename_i hc
      rw [Prod.mk.injEq, Prod.mk.injEq] at h
      obtain ⟨h1, h2, _⟩ := h
      subst h2
      rw [drainBuffer_nil, if_neg hc]
  | cons c rest ih =>
    intro out buf h
    rw [drainBuffer_cons] at h
    split at h
    · split at h
      · simp at h
      · rcases hd : drainBuffer stopTokens maxLen rest with ⟨out2, buf2, st2⟩
        rw [hd] at h
        rw [Prod.mk.injEq, Prod.mk.injEq] at h
        obtain ⟨h1, h2, h3⟩ := h
        subst h3
        subst h2
        exact ih out2 buf2 hd
    · rename_i hlen
      rw [Prod.mk.injEq, Prod.mk.injEq] at h
      obtain ⟨h1, h2, _⟩ := h
      subst h2
      rw [drainBuffer_cons, if_neg hlen]

theorem drainBuffer_append_stop (stopTokens : List (List Char))
    (maxLen : Nat) (hle : ∀ t ∈ stopTokens, t.length ≤ maxLen) :
    ∀ (b c out buf : List Char),
    drainBuffer stopTokens maxLen b = (out, buf, true) →
    drainBuffer stopTokens maxLen (b ++ c) = (out, buf ++ c, true) := by
  intro b
  induction b with
  | nil =>
    intro c out buf h
    rw [drainBuffer_nil] at h
    split at h
    · rename_i hc
      rw [Prod.mk.injEq, Prod.mk.injEq] at h
      obtain ⟨h1, h2, _⟩ := h
      subst h1
      subst h2
      show drainBuffer stopTokens maxLen c = ([], c, true)
      cases c with
      | nil =>
        rw [drainBuffer_nil, if_pos hc]
      | cons x r =>
        rw [drainBuffer_cons]
        have hl : (x :: r).length ≥ maxLen := by
          rw [hc.1]
          exact Nat.zero_le _
        rw [if_pos hl,
          if_pos (startsWithAnyStop_of_empty stopTokens hc.2 (x :: r))]
    · simp at h
  | cons x rest ih =>
    intro c out buf h
    rw [drainBuffer_cons] at h
    split at h
    · rename_i hlen
      split at h
      · rename_i hfound
        rw [Prod.mk.injEq, Prod.mk.injEq] at h
        obtain ⟨h1, h2, _⟩ := h
        subst h1
        subst h2
        rw [List.cons_append, drainBuffer_cons]
        have hlen2 : (x :: (rest ++ c)).length ≥ maxLen := by
          simp only [List.length_cons, List.length_append] at hlen ⊢
          omega
        rw [if_pos hlen2]
        have hf2 : startsWithAnyStop (x :: (rest ++ c)) stopTokens = true := by
          rw [← List.cons_append,
            startsWithAnyStop_append stopTokens maxLen hle _ c hlen]
          exact hfound
        rw [if_pos hf2]
      · rename_i hfound
        rcases hd : drainBuffer stopTokens maxLen rest with ⟨out2, buf2, st2⟩
        rw [hd] at h
        rw [Prod.mk.injEq, Prod.mk.injEq] at h
        obtain ⟨h1, h2, h3⟩ := h
        subst h3
        subst h2
        subst h1
        rw [List.cons_append, drainBuffer_cons]
        have hlen2 : (x :: (rest ++ c)).length ≥ maxLen := by
          simp only [List.length_cons, List.length_append] at hlen ⊢
          omega
        rw [if_pos hlen2]
        have hf2 : startsWithAnyStop (x :: (rest ++ c)) stopTokens =
            false := by
          rw [← List.cons_append,
            startsWithAnyStop_append stopTokens maxLen hle _ c hlen]
          simpa using hfound
        rw [hf2]
        simp only [Bool.false_eq_true, if_false]
        rw [ih c out2 buf2 hd]
    · rename_i hlen
      rw [Prod.mk.injEq, Prod.mk.injEq] at h
      obtain ⟨_, _, h3⟩ := h
      simp at h3

theorem drainBuffer_append_cont (stopTokens : List (List Char))
    (maxLen : Nat) (hle : ∀ t ∈ stopTokens, t.length ≤ maxLen) :
    ∀ (b c out buf : List Char),
    drainBuffer stopTokens maxLen b = (out, buf, false) →
    drainBuffer stopTokens maxLen (b ++ c) =
      (out ++ (drainBuffer stopTokens maxLen (buf ++ c)).1,
        (drainBuffer stopTokens maxLen (buf ++ c)).2.1,
        (drainBuffer stopTokens maxLen (buf ++ c)).2.2) := by
  intro b
  induction b with
  | nil =>
    intro c out buf h
    rw [drainBuffer_nil] at h
    split at h
    · simp at h
    · rw [Prod.mk.injEq, Prod.mk.injEq] at h
      obtain ⟨h1, h2, _⟩ := h
      subst h1
      subst h2
      rfl
  | cons x rest ih =>
    intro c out buf h
    rw [drainBuffer_cons] at h
    split at h
    · rename_i hlen
      split at h
      · simp at h
      · rename_i hfound
        rcases hd : drainBuffer stopTokens maxLen rest with ⟨out2, buf2, st2⟩
        rw [hd] at h
        rw [Prod.mk.injEq, Prod.mk.injEq] at h
        obtain ⟨h1, h2, h3⟩ := h
        subst h3
        subst h2
        subst h1
        rw [List.cons_append, drainBuffer_cons]
        have hlen2 : (x :: (rest ++ c)).length ≥ maxLen := by
          simp only [List.length_cons, List.length_append] at hlen ⊢
          omega
        rw [if_pos hlen2]
        have hf2 : startsWithAnyStop (x :: (rest ++ c)) stopTokens =
            false := by
          rw [← List.cons_append,
            startsWithAnyStop_append stopTokens maxLen hle _ c hlen]
          simpa using hfound
        rw [hf2]
        simp only [Bool.false_eq_true, if_false]
        rw [ih c out2 buf2 hd]
        rfl
    · rename_i hlen
      rw [Prod.mk.injEq, Prod.mk.injEq] at h
      obtain ⟨h1, h2, _⟩ := h
      subst h1
      subst h2
      rfl

theorem stopSpecGo_eq_drain (stopTokens : List (List Char)) (maxLen : Nat) :
    ∀ s : List Char,
    stopSpecGo stopTokens maxLen s =
      (drainBuffer stopTokens maxLen s).1 ++
        (if (drainBuffer stopTokens maxLen s).2.2 = true then []
         else eofStripTokens stopTokens
           (drainBuffer stopTokens maxLen s).2.1) := by
  intro s
  induction s with
  | nil =>
    rw [drainBuffer_nil]
    unfold stopSpecGo
    split
    · rfl
    · rw [eofStripTokens_nil]
      rfl
  | cons c rest ih =>
    rw [drainBuffer_cons]
    unfold stopSpecGo
    split
    · rename_i hlen
      split
      · rfl
      · rcases hd : drainBuffer stopTokens maxLen rest with ⟨out2, buf2, st2⟩
        rw [hd] at ih
        rw [ih]
        rfl
    · rfl

theorem stopAtStopTokensGo_eq_drain (stopTokens : List (List Char))
    (maxLen : Nat) (hle : ∀ t ∈ stopTokens, t.length ≤ maxLen) :
    ∀ (chunks : List (List Char)) (buffer : List Char),
    drainBuffer stopTokens maxLen buffer = ([], buffer, false) →
    stopAtStopTokensGo stopTokens maxLen chunks buffer =
      (drainBuffer stopTokens maxLen (buffer ++ chunks.flatten)).1 ++
        (if (drainBuffer stopTokens maxLen
            (buffer ++ chunks.flatten)).2.2 = true then []
         else eofStripTokens stopTokens
           (drainBuffer stopTokens maxLen
             (buffer ++ chunks.flatten)).2.1) := by
  intro chunks
  induction chunks with
  | nil =>
    intro buffer hbuf
    rw [List.flatten_nil, List.append_nil, hbuf]
    rfl
  | cons chunk rest ih =>
    intro buffer hbuf
    rw [List.flatten_cons, ← List.append_assoc]
    show (match drainBuffer stopTokens maxLen (buffer ++ chunk) with
      | (out, buf, stopped) =>
        if stopped then out
        else out ++ stopAtStopTokensGo stopTokens maxLen rest buf) = _
    rcases hd : drainBuffer stopTokens maxLen (buffer ++ chunk)
      with ⟨out, buf2, stopped⟩
    cases stopped with
    | true =>
      rw [drainBuffer_append_stop stopTokens maxLen hle _ _ _ _ hd]
      simp
    | false =>
      rw [drainBuffer_append_cont stopTokens maxLen hle _ _ _ _ hd]
      have hres := drainBuffer_residue stopTokens maxLen _ _ _ hd
      show out ++ stopAtStopTokensGo stopTokens maxLen rest buf2 = _
      rw [ih buf2 hres]
      simp [List.append_assoc]

theorem drainBuffer_empty_token (stopTokens : List (List Char))
    (hA : startsWithAnyStop [] stopTokens = true) (s : List Char) :
    (drainBuffer stopTokens 0 s).1 = [] ∧
    (drainBuffer stopTokens 0 s).2.2 = true := by
  cases s with
  | nil =>
    rw [drainBuffer_nil, if_pos ⟨rfl, hA⟩]
    exact ⟨rfl, rfl⟩
  | cons c rest =>
    rw [drainBuffer_cons, if_pos (Nat.zero_le _),
      if_pos (startsWithAnyStop_of_empty stopTokens hA (c :: rest))]
    exact ⟨rfl, rfl⟩

/-- Claim C7 (amended): with a non-empty stop-token set,
`stopAtStopTokens` is chunking-independent and equals the sliding-window
specification on the flattened stream: characters are emitted while at
least `max_len(tokens)` characters remain and no stop token starts the
window; a stop token starting the window ends the output; at end of input
the remaining tail (shorter than `max_len`) is flushed after removing each
stop token's **first** occurrence (in token order) — not every stop-token
substring, as the unamended claim's "strip any stop-token substrings"
reads (see the counterexample). -/
theorem stopAtStopTokens_spec (chunks : List (List Char))
    (stopTokens : List (List Char)) :
    stopAtStopTokens chunks stopTokens =
      stopSpec stopTokens chunks.flatten := by
  unfold stopAtStopTokens stopSpec
  by_cases h0 : stopTokens.length = 0
  · rw [if_pos h0, if_pos h0]
  · rw [if_neg h0, if_neg h0]
    have hle : ∀ t ∈ stopTokens, t.length ≤ maxStopTokenLength stopTokens :=
      fun t ht => length_le_maxStopTokenLength stopTokens t ht
    rw [stopSpecGo_eq_drain stopTokens (maxStopTokenLength stopTokens)
      chunks.flatten]
    by_cases hC : drainBuffer stopTokens (maxStopTokenLength stopTokens) []
        = ([], [], false)
    · rw [stopAtStopTokensGo_eq_drain stopTokens
        (maxStopTokenLength stopTokens) hle chunks [] hC]
      rw [List.nil_append]
    · rw [drainBuffer_nil] at hC
      have hcond : maxStopTokenLength stopTokens = 0 ∧
          startsWithAnyStop [] stopTokens = true := by
        by_contra hn
        rw [if_neg hn] at hC
        exact hC rfl
      have hflat := drainBuffer_empty_token stopTokens hcond.2 chunks.flatten
      rw [hcond.1]
      rw [hflat.2, if_pos rfl, hflat.1, List.nil_append]
      cases chunks with
      | nil =>
        show eofStripTokens stopTokens [] = []
        exact eofStripTokens_nil stopTokens
      | cons chunk rest =>
        show (match drainBuffer stopTokens 0 chunk with
          | (out, buf, stopped) =>
            if stopped then out
            else out ++ stopAtStopTokensGo stopTokens 0 rest buf) = []
        have hc := drainBuffer_empty_token stopTokens hcond.2 chunk
        rcases hd : drainBuffer stopTokens 0 chunk with ⟨out, buf, stopped⟩
        rw [hd] at hc
        obtain ⟨hc1, hc2⟩ := hc
        simp only at hc1 hc2
        subst hc1
        subst hc2
        rfl

/-- Claim C7 counterexample: with stop tokens `["ab", "12345"]` (maximum
length 5) and the single chunk `"abab"`, the stream ends with the whole
input still buffered; the claim's EOF clause — "any stop-token substrings
are stripped from the remaining tail" — predicts an empty flush, but
`buffer.replace(token, "")` removes only the first occurrence of each
token, so the second `"ab"` is emitted. -/
theorem stopAtStopTokens_eof_single_replace :
    stopAtStopTokens ["abab".toList] ["ab".toList, "12345".toList] =
      "ab".toList ∧ "ab".toList ≠ ([] : List Char) := by decide

/-- `Object.keys(BRACKETS).includes(char)` (src/unnamed/part_001 lines
235-239). -/
def isOpenBracket (c : Char) : Bool := ['(', '{', '['].contains c

/-- `Object.values(BRACKETS).includes(char)`. -/
def isCloseBracket (c : Char) : Bool := [')', '}', ']'].contains c

/-- `BRACKETS[c]` — `undefined` (`none`) off the three opening brackets. -/
def bracketClose (c : Char) : Option Char :=
  if c = '(' then some ')'
  else if c = '{' then some '}'
  else if c = '[' then some ']'
  else none

/-- `BRACKETS_REVERSE[c]` (lines 240-244). -/
def bracketOpenOf (c : Char) : Option Char :=
  if c = ')' then some '('
  else if c = '}' then some '{'
  else if c = ']' then some '['
  else none

/-- The bracket-stack loop shared by `handleAcceptedCompletion` (lines
262-282) and the single-line branch of `stopOnUnmatchedClosingBracket`
(lines 310-323): push opening brackets, pop-and-check closing brackets,
`break` when the stack is empty or the popped bracket does not match (the
pop has already happened when the mismatch is seen).  JS arrays push and
pop at the back. -/
def bracketScanStack (stack : List Char) : List Char → List Char
  | [] => stack
  | c :: rest =>
    if isOpenBracket c then bracketScanStack (stack ++ [c]) rest
    else if isCloseBracket c then
      match stack.getLast? with
      | none => stack
      | some top =>
        if bracketClose top = some c then
          bracketScanStack stack.dropLast rest
        else stack.dropLast
    else bracketScanStack stack rest

/-- `handleAcceptedCompletion` (lines 262-282): the opening brackets left
on the stack after scanning the accepted completion. -/
def handleAcceptedCompletion (completion : List Char) : List Char :=
  bracketScanStack [] completion

/-- The suffix loop of `stopOnUnmatchedClosingBracket` (lines 327-337):
skip spaces, `unshift` the matching open bracket of each closing bracket,
stop at the first other character. -/
def suffixSeedLoop (stack : List Char) : List Char → List Char
  | [] => stack
  | c :: rest =>
    if c = ' ' then suffixSeedLoop stack rest
    else
      match bracketOpenOf c with
      | none => stack
      | some ob => suffixSeedLoop (ob :: stack) rest

/-- The character class of the regex `/[^\s\)\}\]]/` (line 344): JS `\s`
together with the three closing brackets. -/
def isWsOrCloser (c : Char) : Bool :=
  [' ', '\t', '\n', '\r', '\u000B', '\u000C', '\u00A0', '\u1680',
    '\u2000', '\u2001', '\u2002', '\u2003', '\u2004', '\u2005',
    '\u2006', '\u2007', '\u2008', '\u2009', '\u200A', '\u2028',
    '\u2029', '\u202F', '\u205F', '\u3000', '\uFEFF'].contains c ||
  isCloseBracket c

/-- The per-chunk character loop (lines 360-374): returns the characters
consumed before any unmatched closing bracket, the updated stack, and
whether the generator `return`ed.  When it does not stop, the consumed
characters are the whole chunk, which is what the trailing
`yield chunk` emits. -/
def scanChunk (stack : List Char) : List Char → List Char × List Char × Bool
  | [] => ([], stack, false)
  | c :: rest =>
    if isCloseBracket c then
      match stack.getLast? with
      | none => ([], stack, true)
      | some top =>
        if bracketClose top = some c then
          match scanChunk stack.dropLast rest with
          | (em, st, stopped) => (c :: em, st, stopped)
        else ([], stack.dropLast, true)
    else if isOpenBracket c then
      match scanChunk (stack ++ [c]) rest with
      | (em, st, stopped) => (c :: em, st, stopped)
    else
      match scanChunk stack rest with
      | (em, st, stopped) => (c :: em, st, stopped)

/-- The chunk loop of `stopOnUnmatchedClosingBracket` (lines 339-376):
until a character outside `/[\s\)\}\]]/` is seen, each chunk's leading
run of whitespace and closing brackets is yielded unchecked; from that
character on, chunks are scanned and the stream ends just before the
first unmatched closing bracket. -/
def stopOnUnmatchedGo (stack : List Char) (seen : Bool) :
    List (List Char) → List Char
  | [] => []
  | chunk :: rest =>
    match seen with
    | false =>
      match chunk.dropWhile isWsOrCloser with
      | [] => chunk ++ stopOnUnmatchedGo stack false rest
      | post =>
        chunk.takeWhile isWsOrCloser ++
          (match scanChunk stack post with
           | (em, st, stopped) =>
             if stopped then em
             else em ++ stopOnUnmatchedGo st true rest)
    | true =>
      match scanChunk stack chunk with
      | (em, st, stopped) =>
        if stopped then em else em ++ stopOnUnmatchedGo st true rest

/-- The stack seeding of `stopOnUnmatchedClosingBracket` (lines 300-337):
multiline completions reuse the opening brackets of the last accepted
completion when the file matches; single-line completions scan the cursor
line (last line of the prefix plus first line of the suffix); then the
suffix's leading closing brackets contribute their matching openers. -/
def seededBracketStack (multiline lastFileMatches : Bool)
    (lastCompletionBrackets : List Char) (pre suf : List Char) :
    List Char :=
  suffixSeedLoop
    (if multiline then
      (if lastFileMatches then lastCompletionBrackets else [])
    else
      bracketScanStack []
        ((match (splitListOnChar '\n' pre).getLast? with
          | none => []
          | some l => l) ++
         (match splitListOnChar '\n' suf with
          | [] => []
          | l :: _ => l)))
    suf

/-- `stopOnUnmatchedClosingBracket` (lines 293-377) on a chunk stream,
returning the concatenation of all yielded characters. -/
def stopOnUnmatchedClosingBracket (multiline lastFileMatches : Bool)
    (lastCompletionBrackets : List Char) (pre suf : List Char)
    (chunks : List (List Char)) : List Char :=
  stopOnUnmatchedGo
    (seededBracketStack multiline lastFileMatches lastCompletionBrackets
      pre suf) false chunks

/-- The spec-side scan: emit characters up to (not including) the first
closing bracket that fails to match the top of the stack. -/
def bracketSpecScan (stack : List Char) : List Char → List Char
  | [] => []
  | c :: rest =>
    if isCloseBracket c then
      match stack.getLast? with
      | none => []
      | some top =>
        if bracketClose top = some c then
          c :: bracketSpecScan stack.dropLast rest
        else []
    else if isOpenBracket c then c :: bracketSpecScan (stack ++ [c]) rest
    else c :: bracketSpecScan stack rest

/-- The chunking-independent specification of the bracket filter: the
leading run of whitespace and closing brackets is emitted verbatim, and
the remainder is emitted up to the first unmatched closing bracket. -/
def bracketSpec (stack : List Char) (s : List Char) : List Char :=
  s.takeWhile isWsOrCloser ++
    bracketSpecScan stack (s.dropWhile isWsOrCloser)

theorem scanChunk_nil (stack : List Char) :
    scanChunk stack [] = ([], stack, false) := rfl

theorem scanChunk_cons (stack : List Char) (c : Char) (rest : List Char) :
    scanChunk stack (c :: rest) =
      if isCloseBracket c then
        match stack.getLast? with
        | none => ([], stack, true)
        | some top =>
          if bracketClose top = some c then
            match scanChunk stack.dropLast rest with
            | (em, st, stopped) => (c :: em, st, stopped)
          else ([], stack.dropLast, true)
      else if isOpenBracket c then
        match scanChunk (stack ++ [c]) rest with
        | (em, st, stopped) => (c :: em, st, stopped)
      else
        match scanChunk stack rest with
        | (em, st, stopped) => (c :: em, st, stopped) := rfl

theorem bracketSpecScan_eq_scanChunk : ∀ (s : List Char)
    (stack : List Char),
    bracketSpecScan stack s = (scanChunk stack s).1 := by
  intro s
  induction s with
  | nil => intro stack; rfl
  | cons c rest ih =>
    intro stack
    rw [scanChunk_cons]
    unfold bracketSpecScan
    by_cases hc : isCloseBracket c = true
    · rw [hc]
      simp only [if_true]
      rcases stack.getLast? with _ | top
      · rfl
      · show (if bracketClose top = some c then
            c :: bracketSpecScan stack.dropLast rest else []) =
          (if bracketClose top = some c then
            match scanChunk stack.dropLast rest with
            | (em, st, stopped) => (c :: em, st, stopped)
           else ([], stack.dropLast, true)).1
        by_cases hm : bracketClose top = some c
        · rw [if_pos hm, if_pos hm, ih stack.dropLast]
        · rw [if_neg hm, if_neg hm]
    · rw [Bool.not_eq_true] at hc
      rw [hc]
      simp only [Bool.false_eq_true, if_false]
      by_cases ho : isOpenBracket c = true
      · rw [ho]
        simp only [if_true]
        rw [ih (stack ++ [c])]
      · rw [Bool.not_eq_true] at ho
        rw [ho]
        simp only [Bool.false_eq_true, if_false]
        rw [ih stack]

theorem scanChunk_append_stop : ∀ (a : List Char)
    (stack em st b : List Char),
    scanChunk stack a = (em, st, true) →
    scanChunk stack (a ++ b) = (em, st, true) := by
  intro a
  induction a with
  | nil =>
    intro stack em st b h
    rw [scanChunk_nil] at h
    simp at h
  | cons c rest ih =>
    intro stack em st b h
    rw [scanChunk_cons] at h
    rw [List.cons_append, scanChunk_cons]
    split at h
    · rename_i hclose
      rw [if_pos hclose]
      split at h
      · exact h
      · rename_i top hg
        split at h
        · rename_i hm
          rw [if_pos hm]
          rcases hd : scanChunk stack.dropLast rest with ⟨em2, st2, s2⟩
          rw [hd] at h
          simp only [Prod.mk.injEq] at h
          obtain ⟨h1, h2, h3⟩ := h
          subst h3
          subst h2
          subst h1
          rw [ih stack.dropLast em2 st2 b hd]
        · rename_i hm
          rw [if_neg hm]
          exact h
    · rename_i hclose
      rw [if_neg hclose]
      split at h
      · rename_i hopen
        rw [if_pos hopen]
        rcases hd : scanChunk (stack ++ [c]) rest with ⟨em2, st2, s2⟩
        rw [hd] at h
        simp only [Prod.mk.injEq] at h
        obtain ⟨h1, h2, h3⟩ := h
        subst h3
        subst h2
        subst h1
        rw [ih (stack ++ [c]) em2 st2 b hd]
      · rename_i hopen
        rw [if_neg hopen]
        rcases hd : scanChunk stack rest with ⟨em2, st2, s2⟩
        rw [hd] at h
        simp only [Prod.mk.injEq] at h
        obtain ⟨h1, h2, h3⟩ := h
        subst h3
        subst h2
        subst h1
        rw [ih stack em2 st2 b hd]

theorem scanChunk_append_cont : ∀ (a : List Char)
    (stack em st b : List Char),
    scanChunk stack a = (em, st, false) →
    scanChunk stack (a ++ b) = (em ++ (scanChunk st b).1, (scanChunk st b).2.1,
        (scanChunk st b).2.2) := by
  intro a
  induction a with
  | nil =>
    intro stack em st b h
    rw [scanChunk_nil] at h
    simp only [Prod.mk.injEq] at h
    obtain ⟨h1, h2, _⟩ := h
    subst h1
    subst h2
    rw [List.nil_append]
    rfl
  | cons c rest ih =>
    intro stack em st b h
    rw [scanChunk_cons] at h
    rw [List.cons_append, scanChunk_cons]
    split at h
    · rename_i hclose
      rw [if_pos hclose]
      split at h
      · simp at h
      · rename_i top hg
        split at h
        · rename_i hm
          rw [if_pos hm]
          rcases hd : scanChunk stack.dropLast rest with ⟨em2, st2, s2⟩
          rw [hd] at h
          simp only [Prod.mk.injEq] at h
          obtain ⟨h1, h2, h3⟩ := h
          subst h3
          subst h2
          subst h1
          rw [ih stack.dropLast em2 st2 b hd]
          rfl
        · rename_i hm
          rw [if_neg hm]
          simp at h
    · rename_i hclose
      rw [if_neg hclose]
      split at h
      · rename_i hopen
        rw [if_pos hopen]
        rcases hd : scanChunk (stack ++ [c]) rest with ⟨em2, st2, s2⟩
        rw [hd] at h
        simp only [Prod.mk.injEq] at h
        obtain ⟨h1, h2, h3⟩ := h
        subst h3
        subst h2
        subst h1
        rw [ih (stack ++ [c]) em2 st2 b hd]
        rfl
      · rename_i hopen
        rw [if_neg hopen]
        rcases hd : scanChunk stack rest with ⟨em2, st2, s2⟩
        rw [hd] at h
        simp only [Prod.mk.injEq] at h
        obtain ⟨h1, h2, h3⟩ := h
        subst h3
        subst h2
        subst h1
        rw [ih stack em2 st2 b hd]
        rfl

theorem takeWhile_append_of_dropWhile_nil {α : Type} (p : α → Bool) :
    ∀ (a b : List α), a.dropWhile p = [] →
      (a ++ b).takeWhile p = a ++ b.takeWhile p ∧
      (a ++ b).dropWhile p = b.dropWhile p := by
  intro a
  induction a with
  | nil =>
    intro b _
    exact ⟨rfl, rfl⟩
  | cons x a ih =>
    intro b h
    rw [List.dropWhile_cons] at h
    split at h
    · rename_i hp
      obtain ⟨h1, h2⟩ := ih b h
      constructor
      · rw [List.cons_append, List.takeWhile_cons, hp, if_pos rfl, h1,
          List.cons_append]
      · rw [List.cons_append, List.dropWhile_cons, hp, if_pos rfl, h2]
    · simp at h

theorem takeWhile_append_of_dropWhile_cons {α : Type} (p : α → Bool) :
    ∀ (a b : List α), a.dropWhile p ≠ [] →
      (a ++ b).takeWhile p = a.takeWhile p ∧
      (a ++ b).dropWhile p = a.dropWhile p ++ b := by
  intro a
  induction a with
  | nil =>
    intro b h
    exact absurd rfl h
  | cons x a ih =>
    intro b h
    rw [List.dropWhile_cons] at h
    by_cases hp : p x = true
    · rw [hp, if_pos rfl] at h
      obtain ⟨h1, h2⟩ := ih b h
      constructor
      · rw [List.cons_append, List.takeWhile_cons, hp, if_pos rfl, h1,
          List.takeWhile_cons, hp, if_pos rfl]
      · rw [List.cons_append, List.dropWhile_cons, hp, if_pos rfl, h2,
          List.dropWhile_cons, hp, if_pos rfl]
    · rw [Bool.not_eq_true] at hp
      constructor
      · rw [List.cons_append, List.takeWhile_cons, hp,
          List.takeWhile_cons, hp]
        simp only [Bool.false_eq_true, if_false]
      · rw [List.cons_append, List.dropWhile_cons, hp,
          List.dropWhile_cons, hp]
        simp only [Bool.false_eq_true, if_false]
        rw [List.cons_append]

theorem stopOnUnmatchedGo_seen_eq : ∀ (chunks : List (List Char))
    (stack : List Char),
    stopOnUnmatchedGo stack true chunks =
      bracketSpecScan stack chunks.flatten := by
  intro chunks
  induction chunks with
  | nil => intro stack; rfl
  | cons chunk rest ih =>
    intro stack
    rw [List.flatten_cons]
    show (match scanChunk stack chunk with
      | (em, st, stopped) =>
        if stopped then em
        else em ++ stopOnUnmatchedGo st true rest) =
      bracketSpecScan stack (chunk ++ rest.flatten)
    rcases hd : scanChunk stack chunk with ⟨em, st, stopped⟩
    cases stopped with
    | true =>
      show em = bracketSpecScan stack (chunk ++ rest.flatten)
      rw [bracketSpecScan_eq_scanChunk,
        scanChunk_append_stop chunk stack em st rest.flatten hd]
    | false =>
      show em ++ stopOnUnmatchedGo st true rest =
        bracketSpecScan stack (chunk ++ rest.flatten)
      rw [bracketSpecScan_eq_scanChunk,
        scanChunk_append_cont chunk stack em st rest.flatten hd,
        ih st, bracketSpecScan_eq_scanChunk]

theorem stopOnUnmatchedGo_false_eq : ∀ (chunks : List (List Char))
    (stack : List Char),
    stopOnUnmatchedGo stack false chunks =
      bracketSpec stack chunks.flatten := by
  intro chunks
  induction chunks with
  | nil => intro stack; rfl
  | cons chunk rest ih =>
    intro stack
    rw [List.flatten_cons]
    show (match chunk.dropWhile isWsOrCloser with
      | [] => chunk ++ stopOnUnmatchedGo stack false rest
      | post =>
        chunk.takeWhile isWsOrCloser ++
          (match scanChunk stack post with
           | (em, st, stopped) =>
             if stopped then em
             else em ++ stopOnUnmatchedGo st true rest)) =
      bracketSpec stack (chunk ++ rest.flatten)
    rcases hpost : chunk.dropWhile isWsOrCloser with _ | ⟨pc, post2⟩
    · show chunk ++ stopOnUnmatchedGo stack false rest =
        bracketSpec stack (chunk ++ rest.flatten)
      obtain ⟨ht, hd2⟩ := takeWhile_append_of_dropWhile_nil isWsOrCloser
        chunk rest.flatten hpost
      unfold bracketSpec
      rw [ht, hd2, ih stack]
      unfold bracketSpec
      rw [List.append_assoc]
    · show chunk.takeWhile isWsOrCloser ++
          (match scanChunk stack (pc :: post2) with
           | (em, st, stopped) =>
             if stopped then em
             else em ++ stopOnUnmatchedGo st true rest) =
        bracketSpec stack (chunk ++ rest.flatten)
      obtain ⟨ht, hd2⟩ := takeWhile_append_of_dropWhile_cons isWsOrCloser
        chunk rest.flatten (by rw [hpost]; simp)
      unfold bracketSpec
      rw [ht, hd2, hpost, bracketSpecScan_eq_scanChunk]
      rcases hs : scanChunk stack (pc :: post2) with ⟨em, st, stopped⟩
      cases stopped with
      | true =>
        show chunk.takeWhile isWsOrCloser ++ em = _
        rw [scanChunk_append_stop (pc :: post2) stack em st
          rest.flatten hs]
      | false =>
        show chunk.takeWhile isWsOrCloser ++
          (em ++ stopOnUnmatchedGo st true rest) = _
        rw [scanChunk_append_cont (pc :: post2) stack em st
          rest.flatten hs, stopOnUnmatchedGo_seen_eq rest st,
          bracketSpecScan_eq_scanChunk]

/-- Claim C8 (amended): the bracket filter equals, for every chunking of
the stream, this specification of the flattened stream: the leading run of
whitespace and closing brackets is emitted verbatim and unchecked, and
from the first other character on, characters are emitted up to (not
including) the first closing bracket that is unmatched against the seeded
stack.  In particular a balanced stream is emitted unchanged, but an
unmatched closer inside the leading whitespace-and-closers run does not
end the output, contrary to the unamended claim (see the
counterexample). -/
theorem stopOnUnmatchedClosingBracket_spec (multiline lastFileMatches :
    Bool) (lastCompletionBrackets : List Char) (pre suf : List Char)
    (chunks : List (List Char)) :
    stopOnUnmatchedClosingBracket multiline lastFileMatches
        lastCompletionBrackets pre suf chunks =
      bracketSpec (seededBracketStack multiline lastFileMatches
        lastCompletionBrackets pre suf) chunks.flatten :=
  stopOnUnmatchedGo_false_eq chunks _

/-- Claim C8 counterexample: with an empty seeded stack (multiline
completion, different file, empty suffix) the single-chunk stream `")x"`
is emitted in full.  The leading `")"` arrives before any character
outside `/[\s\)\}\]]/`, so the pre-phase yields it without consulting the
stack; the claim predicts the output terminates before that unmatched
closer, i.e. is empty. -/
theorem stopOnUnmatched_leading_closer_passes :
    stopOnUnmatchedClosingBracket true false [] [] [] [")x".toList] =
      ")x".toList ∧ ")x".toList ≠ ([] : List Char) := by decide
